import Mathlib

/-!
Verification of the deserialization and link-resolution engine of the
contentful.py Content Delivery API client.  The Python modules
`contentful/cda/serialization.py`, `contentful/cda/resources.py`,
`contentful/cda/fields.py` and the registration checks of
`contentful/cda/client.py` are shallowly embedded below: Python dictionaries
become association lists, Python object identity becomes explicit addresses
into a heap of resources, Python exceptions become an `Except` error monad,
and the external helpers the code calls (`int`, `str`, `bool`,
`dateutil.parser.parse`, `ast.literal_eval`) are modelled as executable Lean
functions on an embedded Python value domain.
-/

set_option maxHeartbeats 1000000

namespace Contentful

/-- Errors corresponding to the Python exceptions the embedded code can raise. -/
inductive Err where
  | keyError
  | typeError
  | attributeError
  | valueError
  | syntaxError
  | exception
  | outOfFuel
  deriving DecidableEq, Repr

/-- Embedded JSON documents, as handed to the factory after `r.json()`.
Floating point numbers are outside the scope of this model. -/
inductive Json where
  | null
  | jb (b : Bool)
  | jn (n : Int)
  | js (s : String)
  | jarr (l : List Json)
  | jobj (o : List (String × Json))
  deriving Repr

/-- Embedded Python runtime values as they occur in resource field storage:
JSON scalars and containers, `ResourceLink` placeholders (`vlink`), resolved
references to heap resources (`vref`), and `datetime` values produced by the
date coercion (`vdate`). -/
inductive PyVal where
  | vnull
  | vbool (b : Bool)
  | vint (n : Int)
  | vstr (s : String)
  | vlist (l : List PyVal)
  | vobj (o : List (PyVal × PyVal))
  | vlink (linkType : PyVal) (rid : PyVal)
  | vref (a : Nat)
  | vdate (year month day hour minute second usec : Nat) (tz : Option Int)
  deriving Repr

mutual
/-- Boolean equality test on embedded Python values. -/
def pyBeq : PyVal → PyVal → Bool
  | .vnull, .vnull => true
  | .vbool a, .vbool b => a == b
  | .vint a, .vint b => a == b
  | .vstr a, .vstr b => a == b
  | .vlist l, .vlist m => pyListBeq l m
  | .vobj o, .vobj p => pyObjBeq o p
  | .vlink t i, .vlink t' i' => pyBeq t t' && pyBeq i i'
  | .vref a, .vref b => a == b
  | .vdate y mo d h mi s u tz, .vdate y' mo' d' h' mi' s' u' tz' =>
      y == y' && mo == mo' && d == d' && h == h' && mi == mi' && s == s' &&
        u == u' && tz == tz'
  | _, _ => false

/-- Boolean equality test on lists of embedded Python values. -/
def pyListBeq : List PyVal → List PyVal → Bool
  | [], [] => true
  | a :: as, b :: bs => pyBeq a b && pyListBeq as bs
  | _, _ => false

/-- Boolean equality test on dictionaries of embedded Python values. -/
def pyObjBeq : List (PyVal × PyVal) → List (PyVal × PyVal) → Bool
  | [], [] => true
  | (k, a) :: as, (k', b) :: bs => pyBeq k k' && pyBeq a b && pyObjBeq as bs
  | _, _ => false
end

mutual
theorem pyBeq_refl : ∀ a : PyVal, pyBeq a a = true
  | .vnull => rfl
  | .vbool a => by simp [pyBeq]
  | .vint a => by simp [pyBeq]
  | .vstr a => by simp [pyBeq]
  | .vlist l => by simp only [pyBeq]; exact pyListBeq_refl l
  | .vobj o => by simp only [pyBeq]; exact pyObjBeq_refl o
  | .vlink t i => by simp only [pyBeq, Bool.and_eq_true]; exact ⟨pyBeq_refl t, pyBeq_refl i⟩
  | .vref a => by simp [pyBeq]
  | .vdate y mo d h mi s u tz => by simp [pyBeq]

theorem pyListBeq_refl : ∀ l : List PyVal, pyListBeq l l = true
  | [] => rfl
  | a :: as => by
      simp only [pyListBeq, Bool.and_eq_true]
      exact ⟨pyBeq_refl a, pyListBeq_refl as⟩

theorem pyObjBeq_refl : ∀ o : List (PyVal × PyVal), pyObjBeq o o = true
  | [] => rfl
  | (k, a) :: as => by
      simp only [pyObjBeq, Bool.and_eq_true]
      exact ⟨⟨pyBeq_refl k, pyBeq_refl a⟩, pyObjBeq_refl as⟩
end

theorem pyBeq_sound_aux :
    ∀ n : Nat, ∀ a b : PyVal, sizeOf a < n → pyBeq a b = true → a = b := by
  intro n
  induction n with
  | zero => intro a b hs _; exact absurd hs (by omega)
  | succ n ih =>
    have ihList : ∀ (l m : List PyVal), sizeOf l ≤ n → pyListBeq l m = true → l = m := by
      intro l
      induction l with
      | nil =>
        intro m _ h
        cases m with
        | nil => rfl
        | cons b bs => simp [pyListBeq] at h
      | cons a as ihas =>
        intro m hs h
        cases m with
        | nil => simp [pyListBeq] at h
        | cons b bs =>
          simp only [pyListBeq, Bool.and_eq_true] at h
          have hsz : sizeOf a < n := by
            have : sizeOf (a :: as) = 1 + sizeOf a + sizeOf as := by simp
            omega
          have hsz2 : sizeOf as ≤ n := by
            have : sizeOf (a :: as) = 1 + sizeOf a + sizeOf as := by simp
            omega
          rw [ih a b hsz h.1, ihas bs hsz2 h.2]
    have ihObj : ∀ (o p : List (PyVal × PyVal)), sizeOf o ≤ n → pyObjBeq o p = true → o = p := by
      intro o
      induction o with
      | nil =>
        intro p _ h
        cases p with
        | nil => rfl
        | cons b bs => exact absurd h (by cases b; simp [pyObjBeq])
      | cons a as ihas =>
        intro p hs h
        obtain ⟨k, v⟩ := a
        cases p with
        | nil => simp [pyObjBeq] at h
        | cons b bs =>
          obtain ⟨k', v'⟩ := b
          simp only [pyObjBeq, Bool.and_eq_true] at h
          have hk : sizeOf k < n := by
            have : sizeOf ((k, v) :: as) = 1 + (1 + sizeOf k + sizeOf v) + sizeOf as := by simp
            omega
          have hv : sizeOf v < n := by
            have : sizeOf ((k, v) :: as) = 1 + (1 + sizeOf k + sizeOf v) + sizeOf as := by simp
            omega
          have hrest : sizeOf as ≤ n := by
            have : sizeOf ((k, v) :: as) = 1 + (1 + sizeOf k + sizeOf v) + sizeOf as := by simp
            omega
          rw [ih k k' hk h.1.1, ih v v' hv h.1.2, ihas bs hrest h.2]
    intro a b hs h
    cases a with
    | vnull => cases b <;> first | rfl | simp [pyBeq] at h
    | vbool x =>
      cases b <;> simp [pyBeq] at h
      simp [h]
    | vint x =>
      cases b <;> simp [pyBeq] at h
      simp [h]
    | vstr x =>
      cases b <;> simp [pyBeq] at h
      simp [h]
    | vlist l =>
      cases b <;> try simp [pyBeq] at h
      case vlist m =>
        have hsz : sizeOf l ≤ n := by
          have : sizeOf (PyVal.vlist l) = 1 + sizeOf l := by simp
          omega
        rw [ihList l m hsz h]
    | vobj o =>
      cases b <;> try simp [pyBeq] at h
      case vobj p =>
        have hsz : sizeOf o ≤ n := by
          have : sizeOf (PyVal.vobj o) = 1 + sizeOf o := by simp
          omega
        rw [ihObj o p hsz h]
    | vlink t i =>
      cases b <;> try simp only [pyBeq, Bool.and_eq_true] at h
      case vlink t' i' =>
        have h1 : sizeOf t < n := by
          have : sizeOf (PyVal.vlink t i) = 1 + sizeOf t + sizeOf i := by simp
          omega
        have h2 : sizeOf i < n := by
          have : sizeOf (PyVal.vlink t i) = 1 + sizeOf t + sizeOf i := by simp
          omega
        rw [ih t t' h1 h.1, ih i i' h2 h.2]
      all_goals simp_all
    | vref x =>
      cases b <;> simp [pyBeq] at h
      simp [h]
    | vdate y mo d h0 mi s u tz =>
      cases b <;> simp [pyBeq] at h
      obtain ⟨⟨⟨⟨⟨⟨⟨h1, h2⟩, h3⟩, h4⟩, h5⟩, h6⟩, h7⟩, h8⟩ := h
      simp [h1, h2, h3, h4, h5, h6, h7, h8]

theorem pyBeq_sound {a b : PyVal} (h : pyBeq a b = true) : a = b :=
  pyBeq_sound_aux (sizeOf a + 1) a b (by omega) h

theorem pyBeq_iff_eq {a b : PyVal} : pyBeq a b = true ↔ a = b :=
  ⟨pyBeq_sound, fun h => h ▸ pyBeq_refl a⟩

instance : DecidableEq PyVal := fun a b =>
  decidable_of_iff (pyBeq a b = true) pyBeq_iff_eq

instance {ε α : Type} [DecidableEq ε] [DecidableEq α] : DecidableEq (Except ε α) :=
  fun a b =>
    match a, b with
    | .ok x, .ok y =>
      decidable_of_iff (x = y) ⟨fun h => h ▸ rfl, fun h => by injection h⟩
    | .error x, .error y =>
      decidable_of_iff (x = y) ⟨fun h => h ▸ rfl, fun h => by injection h⟩
    | .ok _, .error _ => isFalse (fun h => Except.noConfusion h)
    | .error _, .ok _ => isFalse (fun h => Except.noConfusion h)

/-- Dictionary of Python values, keyed by Python values (Python `dict`). -/
abbrev PDict := List (PyVal × PyVal)

/-- Python dict lookup `d.get(k)` on a value-keyed dict: first binding for the
key wins. -/
def pGet {α : Type} (d : List (PyVal × α)) (k : PyVal) : Option α :=
  match d with
  | [] => none
  | (k', v) :: rest => if pyBeq k' k then some v else pGet rest k

/-- Python dict update `d[k] = v`: overwrite in place if the key is present
(keeping its position, as Python dicts do), otherwise append. -/
def pSet {α : Type} (d : List (PyVal × α)) (k : PyVal) (v : α) : List (PyVal × α) :=
  match d with
  | [] => [(k, v)]
  | (k', v') :: rest => if pyBeq k' k then (k', v) :: rest else (k', v') :: pSet rest k v

/-- Lookup in the body of a JSON object: first binding for the key wins. -/
def jlookup (o : List (String × Json)) (k : String) : Option Json :=
  match o with
  | [] => none
  | (k', v) :: rest => if k' = k then some v else jlookup rest k

/-- Lookup in a JSON object (`json['key']` succeeding); `none` when the node is
not an object or the key is absent. -/
def jget (j : Json) (k : String) : Option Json :=
  match j with
  | .jobj o => jlookup o k
  | _ => none

/-- Python subscription `j[k]`: raises `KeyError` when the key is absent and
`TypeError` when the node is not a mapping at all. -/
def jgetE (j : Json) (k : String) : Except Err Json :=
  match j with
  | .jobj _ =>
    match jget j k with
    | some v => .ok v
    | none => .error .keyError
  | _ => .error .typeError

mutual
/-- Conversion of a decoded JSON node into the Python value it denotes. -/
def jsonToPy : Json → PyVal
  | .null => .vnull
  | .jb b => .vbool b
  | .jn n => .vint n
  | .js s => .vstr s
  | .jarr l => .vlist (jsonListToPy l)
  | .jobj o => .vobj (jsonPairsToPy o)

/-- Conversion of a JSON array body. -/
def jsonListToPy : List Json → List PyVal
  | [] => []
  | j :: rest => jsonToPy j :: jsonListToPy rest

/-- Conversion of a JSON object body; keys become Python strings. -/
def jsonPairsToPy : List (String × Json) → List (PyVal × PyVal)
  | [] => []
  | (k, j) :: rest => (.vstr k, jsonToPy j) :: jsonPairsToPy rest
end

/-! Decimal printing and parsing of natural numbers, used to model the string
forms Python produces (`str`) and consumes (`int`). -/

/-- Numeric value of a decimal digit character. -/
def digitVal (c : Char) : Nat := c.toNat - 48

/-- Fuel-driven decimal printer; `fuel` bounds the number of digits, so any
`fuel` at least the value itself is enough. -/
def natCharsAux : Nat → Nat → List Char
  | 0, _ => []
  | fuel + 1, n =>
    if n = 0 then [] else natCharsAux fuel (n / 10) ++ [Nat.digitChar (n % 10)]

/-- Decimal digits of a natural number, most significant first; empty for 0. -/
def natChars (n : Nat) : List Char := natCharsAux n n

/-- Decimal digits of `n` left-padded with zeros to width `w`. -/
def padNum (w n : Nat) : List Char :=
  List.replicate (w - (natChars n).length) '0' ++ natChars n

/-- Check that every character is a decimal digit. -/
def allDigits (cs : List Char) : Bool := cs.all (·.isDigit)

/-- Value of a big-endian digit string. -/
def digitsVal (cs : List Char) : Nat := cs.foldl (fun a c => 10 * a + digitVal c) 0

/-- Parse a nonempty all-digit string as a natural number. -/
def parseNatChars (cs : List Char) : Option Nat :=
  if cs.isEmpty then none
  else if allDigits cs then some (digitsVal cs) else none

/-- Whitespace as stripped by Python `int` before parsing. -/
def isPySpace (c : Char) : Bool :=
  c = ' ' || c = '\t' || c = '\n' || c = '\r' || c = '\x0b' || c = '\x0c'

/-- Strip leading and trailing whitespace. -/
def trimChars (cs : List Char) : List Char :=
  ((cs.dropWhile isPySpace).reverse.dropWhile isPySpace).reverse

/-- Digit run with optional single underscores between digits, as accepted by
the Python integer parser after sign and whitespace handling. -/
def digitsUnd : List Char → Bool
  | [] => false
  | [c] => c.isDigit
  | c :: c2 :: rest =>
    if c.isDigit then
      if c2 = '_' then
        match rest with
        | [] => false
        | _ => digitsUnd rest
      else digitsUnd (c2 :: rest)
    else false

/-- Value of a digit-and-underscore run: underscores are ignored. -/
def undVal (cs : List Char) : Nat := digitsVal (cs.filter (·.isDigit))

/-- Sign handling of the Python integer parser, applied after whitespace
stripping. -/
def parseIntCore (t : List Char) : Option Int :=
  match t with
  | [] => none
  | c0 :: rest =>
    if c0 = '+' then if digitsUnd rest then some (undVal rest) else none
    else if c0 = '-' then if digitsUnd rest then some (-(undVal rest : Int)) else none
    else if digitsUnd (c0 :: rest) then some (undVal (c0 :: rest)) else none

/-- Model of Python `int(s)` on a string: strip whitespace, then an optional
sign followed by digits with optional single underscores between them. -/
def parseIntChars (cs : List Char) : Option Int :=
  parseIntCore (trimChars cs)

/-- Model of Python `str` on an integer. -/
def intChars (i : Int) : List Char :=
  if i < 0 then '-' :: natChars i.natAbs
  else if i = 0 then ['0'] else natChars i.natAbs

/-! Model of Python `datetime` stringification and of the permissive
`dateutil.parser.parse` on the formats this library feeds it: the ISO-like
forms with a space or a T separator, optional fractional seconds, optional Z
suffix or signed hour-minute offset, and the 8-digit compact date form. -/

/-- Characters of the date component of `str` on a `datetime`. -/
def dateChars (y mo d : Nat) : List Char :=
  padNum 4 y ++ '-' :: padNum 2 mo ++ '-' :: padNum 2 d

/-- Characters of the fractional-seconds component (empty when zero, as Python
omits `.000000`). -/
def fracChars (u : Nat) : List Char := if u = 0 then [] else '.' :: padNum 6 u

/-- Characters of the UTC-offset component (offset in whole minutes). -/
def tzChars : Option Int → List Char
  | none => []
  | some off =>
    (if off < 0 then '-' else '+') ::
      padNum 2 (off.natAbs / 60) ++ ':' :: padNum 2 (off.natAbs % 60)

/-- Characters of `str` on a full `datetime` value. -/
def datetimeChars (y mo d h mi s u : Nat) (tz : Option Int) : List Char :=
  dateChars y mo d ++ ' ' ::
    (padNum 2 h ++ ':' :: padNum 2 mi ++ ':' :: padNum 2 s ++ fracChars u ++ tzChars tz)

/-- Split a character list on every occurrence of a separator. -/
def splitOnChar (c : Char) : List Char → List (List Char)
  | [] => [[]]
  | x :: xs =>
    match splitOnChar c xs with
    | [] => [[]]
    | h :: t => if x = c then [] :: h :: t else (x :: h) :: t

/-- Split at the first character satisfying a predicate, keeping the match. -/
def splitFirst (p : Char → Bool) : List Char → List Char × Option (Char × List Char)
  | [] => ([], none)
  | x :: xs =>
    if p x then ([], some (x, xs))
    else
      let r := splitFirst p xs
      (x :: r.1, r.2)

/-- Parse a hyphenated year-month-day date component. -/
def parseDatePart (cs : List Char) : Option (Nat × Nat × Nat) :=
  match splitOnChar '-' cs with
  | [ys, ms, ds] => do
    let y ← parseNatChars ys
    let mo ← parseNatChars ms
    let d ← parseNatChars ds
    pure (y, mo, d)
  | _ => none

/-- Parse fractional seconds into microseconds: digits are right-padded with
zeros to six places and extra digits are dropped. -/
def parseFrac (cs : List Char) : Option Nat :=
  if cs.isEmpty then none
  else if allDigits cs then some (digitsVal ((cs ++ List.replicate 6 '0').take 6))
  else none

/-- Parse a seconds component with optional fraction. -/
def parseSecFrac (cs : List Char) : Option (Nat × Nat) :=
  match splitOnChar '.' cs with
  | [ss] => do
    let s ← parseNatChars ss
    pure (s, 0)
  | [ss, fs] => do
    let s ← parseNatChars ss
    let u ← parseFrac fs
    pure (s, u)
  | _ => none

/-- Parse an hour-minute-second-fraction time component. -/
def parseTimeBase (cs : List Char) : Option (Nat × Nat × Nat × Nat) :=
  match splitOnChar ':' cs with
  | [hs, ms, ss] => do
    let h ← parseNatChars hs
    let mi ← parseNatChars ms
    let su ← parseSecFrac ss
    pure (h, mi, su.1, su.2)
  | _ => none

/-- Parse a signed hour-minute UTC offset into whole minutes. -/
def parseOffset (sign : Char) (cs : List Char) : Option Int :=
  match splitOnChar ':' cs with
  | [hs, ms] => do
    let h ← parseNatChars hs
    let m ← parseNatChars ms
    if h ≤ 23 ∧ m ≤ 59 then
      pure (if sign = '-' then -((h * 60 + m : Nat) : Int) else ((h * 60 + m : Nat) : Int))
    else none
  | _ => none

/-- Parse a time component with optional Z suffix or signed offset. -/
def parseTimePart (cs : List Char) : Option (Nat × Nat × Nat × Nat × Option Int) :=
  match splitFirst (fun c => c = 'Z') cs with
  | (base, some (_, [])) => do
    let r ← parseTimeBase base
    pure (r.1, r.2.1, r.2.2.1, r.2.2.2, some 0)
  | (_, some _) => none
  | (base0, none) =>
    match splitFirst (fun c => c = '+' || c = '-') base0 with
    | (base, some (sgn, offcs)) => do
      let r ← parseTimeBase base
      let off ← parseOffset sgn offcs
      pure (r.1, r.2.1, r.2.2.1, r.2.2.2, some off)
    | (base, none) => do
      let r ← parseTimeBase base
      pure (r.1, r.2.1, r.2.2.1, r.2.2.2, none)

/-- Calendar sanity checks the date parser applies. -/
def validDate (y mo d : Nat) : Prop :=
  1 ≤ y ∧ y ≤ 9999 ∧ 1 ≤ mo ∧ mo ≤ 12 ∧ 1 ≤ d ∧ d ≤ 31

instance (y mo d : Nat) : Decidable (validDate y mo d) := by
  unfold validDate; infer_instance

/-- Time-of-day sanity checks the parser applies. -/
def validTime (h mi s : Nat) : Prop := h ≤ 23 ∧ mi ≤ 59 ∧ s ≤ 59

instance (h mi s : Nat) : Decidable (validTime h mi s) := by
  unfold validTime; infer_instance

/-- Model of `dateutil.parser.parse` on a character string, covering the
formats this client produces and consumes. -/
def dparseChars (cs : List Char) : Except Err PyVal :=
  if allDigits cs ∧ cs.length = 8 then
    let y := digitsVal (cs.take 4)
    let mo := digitsVal ((cs.drop 4).take 2)
    let d := digitsVal (cs.drop 6)
    if validDate y mo d then .ok (.vdate y mo d 0 0 0 0 none) else .error .valueError
  else
    match splitFirst (fun c => c = ' ' || c = 'T') cs with
    | (dcs, rest) =>
      match parseDatePart dcs with
      | none => .error .valueError
      | some (y, mo, d) =>
        if validDate y mo d then
          match rest with
          | none => .ok (.vdate y mo d 0 0 0 0 none)
          | some (_, tcs) =>
            match parseTimePart tcs with
            | none => .error .valueError
            | some (h, mi, s, u, tz) =>
              if validTime h mi s then .ok (.vdate y mo d h mi s u tz)
              else .error .valueError
        else .error .valueError

mutual
/-- Model of Python `repr` on an embedded value, which container
stringification applies to elements: strings gain quotes.  The textual form
of link and resource objects includes a memory address in Python; only the
fact that it is a non-numeric bracketed form matters here. -/
def pyReprChars : PyVal → List Char
  | .vnull => "None".data
  | .vbool b => if b then "True".data else "False".data
  | .vint n => intChars n
  | .vstr s => '\'' :: s.data ++ ['\'']
  | .vlist l => '[' :: pyReprListChars l ++ [']']
  | .vobj o => '\x7b' :: pyReprObjChars o ++ ['\x7d']
  | .vlink _ _ => "<ResourceLink>".data
  | .vref _ => "<Resource>".data
  | .vdate y mo d h mi s u tz => datetimeChars y mo d h mi s u tz

/-- Comma-separated reprs of list elements. -/
def pyReprListChars : List PyVal → List Char
  | [] => []
  | [v] => pyReprChars v
  | v :: rest => pyReprChars v ++ ',' :: ' ' :: pyReprListChars rest

/-- Comma-separated reprs of dict entries. -/
def pyReprObjChars : List (PyVal × PyVal) → List Char
  | [] => []
  | [(k, v)] => pyReprChars k ++ ':' :: ' ' :: pyReprChars v
  | (k, v) :: rest =>
      pyReprChars k ++ ':' :: ' ' :: pyReprChars v ++ ',' :: ' ' :: pyReprObjChars rest
end

/-- Model of Python `str` on an embedded value: like `repr` except that a
string reads as itself, without quotes. -/
def pyStrChars : PyVal → List Char
  | .vstr s => s.data
  | v => pyReprChars v

/-! Model of contentful/cda/fields.py: field types, field descriptors, and the
FieldOwner metaclass that validates custom Entry classes, together with the
client-side registration checks of contentful/cda/client.py. -/

/-- Field types declared in fields.py. -/
inductive FieldType where
  | boolean
  | date
  | link
  | location
  | number
  | object
  | symbol
  | text
  | list
  | multipleAssets
  | multipleEntries
  deriving DecidableEq, Repr

/-- A `Field(field_type, field_id=None)` descriptor as written in a class body. -/
structure FieldDecl where
  field_type : FieldType
  field_id : Option String
  deriving DecidableEq, Repr

/-- A field descriptor after FieldOwner resolved its remote id (defaulting to
the attribute name). -/
structure FieldSpec where
  field_type : FieldType
  field_id : String
  deriving DecidableEq, Repr

/-- A class-body attribute: either a Field descriptor or a plain value. -/
inductive ClassAttr where
  | fieldAttr (f : FieldDecl)
  | plain (v : PyVal)
  deriving Repr

/-- The data FieldOwner attaches to a created Entry class. -/
structure EntryClass where
  name : String
  content_type : Option PyVal
  entry_fields : List (String × FieldSpec)
  deriving Repr

/-- Python `x is None` on an attribute that may be unassigned or assigned
the value `None`. -/
def optIsNone : Option PyVal → Bool
  | none => true
  | some .vnull => true
  | some _ => false

/-- Model of `FieldOwner.__new__`: collect Field attributes (defaulting each
missing field id to the attribute name) and, for any class not literally named
Entry, require a `__content_type__` attribute that is not None, raising
AttributeError otherwise. -/
def foStep (name : String) (acc : List (String × FieldSpec) × Option PyVal)
    (nv : String × ClassAttr) : List (String × FieldSpec) × Option PyVal :=
  match nv.2 with
  | .fieldAttr f => (acc.1 ++ [(nv.1, ⟨f.field_type, f.field_id.getD nv.1⟩)], acc.2)
  | .plain v =>
    if name ≠ "Entry" ∧ nv.1 = "__content_type__" then (acc.1, some v) else acc

def fieldOwnerNew (name : String) (attrs : List (String × ClassAttr)) :
    Except Err EntryClass :=
  let is_custom := name ≠ "Entry"
  let acc := attrs.foldl (foStep name) ([], none)
  if is_custom ∧ optIsNone acc.2 then .error .attributeError
  else .ok ⟨name, acc.2, acc.1⟩

/-- A Python class as seen by `Client.validate_config`: the Entry base class
itself, a FieldOwner-created subclass, or a class unrelated to Entry. -/
inductive PyClass where
  | entryBase
  | custom (c : EntryClass)
  | nonEntry (name : String)
  deriving Repr

/-- Python `issubclass(clazz, Entry)`. -/
def issubclassEntry : PyClass → Bool
  | .nonEntry _ => false
  | _ => true

/-- Python `clazz is Entry`. -/
def isEntryBase : PyClass → Bool
  | .entryBase => true
  | _ => false

/-- The registration-relevant part of a `Config`. -/
structure Config where
  space_id : Option String
  access_token : Option String
  custom_entries : List PyClass
  deriving Repr

/-- Model of `Client.validate_config`: non-null space id and access token,
and every custom entry class a proper subclass of Entry that is not Entry
itself. -/
def validate_config (c : Config) : Except Err Unit := do
  if c.space_id = none then throw .exception
  else if c.access_token = none then throw .exception
  else
    c.custom_entries.forM fun clazz =>
      if ¬ issubclassEntry clazz then throw .exception
      else if isEntryBase clazz then throw .exception
      else pure ()

/-! Model of the coercion engine `ResourceFactory.convert_value` together with
the Python builtins it calls. -/

/-- Python `isinstance(v, bool)`. -/
def isinstBool : PyVal → Bool
  | .vbool _ => true
  | _ => false

/-- Python `isinstance(v, int)`; `bool` is a subclass of `int` in Python. -/
def isinstInt : PyVal → Bool
  | .vint _ => true
  | .vbool _ => true
  | _ => false

/-- Python `isinstance(v, str)`. -/
def isinstStr : PyVal → Bool
  | .vstr _ => true
  | _ => false

/-- Python `isinstance(v, list)`. -/
def isinstList : PyVal → Bool
  | .vlist _ => true
  | _ => false

/-- Python `isinstance(v, dict)`. -/
def isinstDict : PyVal → Bool
  | .vobj _ => true
  | _ => false

/-- Python truthiness, as computed by `bool(v)`. -/
def pyTruthy : PyVal → Bool
  | .vnull => false
  | .vbool b => b
  | .vint n => n != 0
  | .vstr s => !s.isEmpty
  | .vlist l => !l.isEmpty
  | .vobj o => !o.isEmpty
  | .vlink _ _ => true
  | .vref _ => true
  | .vdate _ _ _ _ _ _ _ _ => true

/-- Python `int(v)`: integers (and bools) convert directly, strings are parsed
as integer literals (ValueError on failure), everything else is a TypeError. -/
def pyToInt : PyVal → Except Err Int
  | .vint n => .ok n
  | .vbool b => .ok (if b then 1 else 0)
  | .vstr s =>
    match parseIntChars s.data with
    | some n => .ok n
    | none => .error .valueError
  | _ => .error .typeError

/-- Parse a quoted string or integer atom of a literal, for the
`ast.literal_eval` model. -/
def parseAtom (cs : List Char) : Except Err PyVal :=
  match trimChars cs with
  | '\'' :: rest =>
    if rest.getLast? = some '\'' then .ok (.vstr ⟨rest.dropLast⟩) else .error .syntaxError
  | '"' :: rest =>
    if rest.getLast? = some '"' then .ok (.vstr ⟨rest.dropLast⟩) else .error .syntaxError
  | t =>
    match parseIntChars t with
    | some n => .ok (.vint n)
    | none => .error .valueError

/-- Model of `ast.literal_eval` on the flat map-literal strings this library
documents (single- or double-quoted keys and values, or integer atoms). -/
def literalEvalChars (cs : List Char) : Except Err PyVal :=
  match trimChars cs with
  | '\x7b' :: rest =>
    if rest.getLast? = some '\x7d' then
      let body := rest.dropLast
      if (trimChars body).isEmpty then .ok (.vobj [])
      else
        (splitOnChar ',' body).foldlM
          (fun (acc : List (PyVal × PyVal)) entry =>
            match splitOnChar ':' entry with
            | [kcs, vcs] => do
              let k ← parseAtom kcs
              let v ← parseAtom vcs
              pure (pSet acc k v)
            | _ => .error .syntaxError)
          [] |>.map PyVal.vobj
    else .error .syntaxError
  | t => parseAtom t

/-- Model of `ResourceFactory.convert_value`: ensure a raw value matches the
declared field type, converting it otherwise. -/
def convert_value (value : PyVal) (field : FieldSpec) : Except Err PyVal :=
  match field.field_type with
  | .boolean => if isinstBool value then .ok value else .ok (.vbool (pyTruthy value))
  | .date =>
    match value with
    | .vstr s => dparseChars s.data
    | _ => dparseChars (pyStrChars value)
  | .number =>
    if isinstInt value then .ok value
    else do
      let n ← pyToInt value
      pure (.vint n)
  | .object =>
    if isinstDict value then .ok value
    else
      match value with
      | .vstr s => literalEvalChars s.data
      | _ => .error .valueError
  | .text => if isinstStr value then .ok value else .ok (.vstr ⟨pyStrChars value⟩)
  | .symbol => if isinstStr value then .ok value else .ok (.vstr ⟨pyStrChars value⟩)
  | .list => if isinstList value then .ok value else .ok (.vlist [value])
  | .multipleAssets => if isinstList value then .ok value else .ok (.vlist [value])
  | .multipleEntries => if isinstList value then .ok value else .ok (.vlist [value])
  | .link => .ok value
  | .location => .ok value

/-! Model of contentful/cda/resources.py and the graph-building half of
contentful/cda/serialization.py.  Python object identity is made explicit:
resources live in a heap (a list of resources addressed by position) and a
resolved link is a reference `vref a` to a heap address, so that two fields
holding the same resource hold the same address. -/

/-- An Entry resource: system metadata, link-substituted raw field dict, the
deep copy of the original field dict, and the optional `_cf_cda` typed storage
dict (absent until the first descriptor assignment). -/
structure EntryObj where
  sys : Json
  fields : PDict
  raw_fields : PDict
  cf_cda : Option PDict
  deriving Repr

/-- An Asset resource; its constructor leaves `fields` empty. -/
structure AssetObj where
  sys : Json
  fields : PDict
  url : PyVal
  mimeType : PyVal
  deriving Repr

/-- A ContentType resource. -/
structure ContentTypeObj where
  sys : Json
  fields : PDict
  name : PyVal
  display_field : PyVal
  deriving Repr

/-- A Space resource. -/
structure SpaceObj where
  sys : Json
  name : PyVal
  deriving Repr

/-- The two-level index `items_mapped`: resource kind to a dict from remote id
to heap address. -/
abbrev Mapped := List (String × List (PyVal × Nat))

/-- An Array resource; `items` holds heap addresses of decoded items, with
`none` for elements whose type tag matched no resource kind (Python appends
the `None` that `from_json` returned). -/
structure ArrayObj where
  sys : Json
  total : PyVal
  skip : PyVal
  limit : PyVal
  items : List (Option Nat)
  items_mapped : Mapped
  deriving Repr

/-- A decoded resource in the heap. -/
inductive Res where
  | entry (e : EntryObj)
  | asset (a : AssetObj)
  | ctype (c : ContentTypeObj)
  | space (s : SpaceObj)
  | arrRes (a : ArrayObj)
  deriving Repr

/-- The heap of constructed resources; an address is a position. -/
abbrev Heap := List Res

/-- System metadata of any resource. -/
def resSys : Res → Json
  | .entry e => e.sys
  | .asset a => a.sys
  | .ctype c => c.sys
  | .space s => s.sys
  | .arrRes a => a.sys

/-- Model of `ResourceFactory._extract_link`: a value is a link shape when it
is a dict whose `sys` entry is a dict with `type == "Link"`; building the
`ResourceLink` then reads `sys["id"]` and `sys["linkType"]`, raising KeyError
when either is missing. -/
def extract_link (obj : PyVal) : Except Err (Option PyVal) :=
  match obj with
  | .vobj pairs =>
    match pGet pairs (.vstr "sys") with
    | some (.vobj syspairs) =>
      if pGet syspairs (.vstr "type") = some (.vstr "Link") then
        match pGet syspairs (.vstr "id") with
        | none => .error .keyError
        | some rid =>
          match pGet syspairs (.vstr "linkType") with
          | none => .error .keyError
          | some lt => .ok (some (.vlink lt rid))
      else .ok none
    | _ => .ok none
  | _ => .ok none

/-- Link substitution applied to one raw field value by `create_entry`: a link
shape becomes a placeholder, and inside a list value every link-shaped element
becomes a placeholder. -/
def substValue (v : PyVal) : Except Err PyVal := do
  match ← extract_link v with
  | some l => pure l
  | none =>
    match v with
    | .vlist elems => do
      let elems' ← elems.mapM (fun e => do
        match ← extract_link e with
        | some l => pure l
        | none => pure e)
      pure (.vlist elems')
    | _ => pure v

/-- Model of `ResourceFactory.create_entry`: read the content type id, deep
copy the raw fields, substitute link placeholders, and when a custom class is
registered for the content type, coerce each declared field present in the
raw dict into the `_cf_cda` typed storage (created on first assignment). -/
def create_entry (em : List (PyVal × EntryClass)) (j : Json) : Except Err EntryObj := do
  let sys ← jgetE j "sys"
  let ctj ← jgetE (← jgetE (← jgetE sys "contentType") "sys") "id"
  let ct := jsonToPy ctj
  let fieldsJson ← jgetE j "fields"
  let pairs ←
    match fieldsJson with
    | .jobj o => pure (jsonPairsToPy o)
    | _ => throw .attributeError
  let raw_fields := pairs
  let fields ← pairs.mapM (fun kv => do pure (kv.1, ← substValue kv.2))
  match pGet em ct with
  | some clazz => do
    let cf ← clazz.entry_fields.foldlM
      (fun (cf : Option PDict) av => do
        match pGet fields (.vstr av.2.field_id) with
        | none => pure cf
        | some .vnull => pure cf
        | some fv => do
          let cv ← convert_value fv av.2
          pure (some (pSet (cf.getD []) (.vstr av.2.field_id) cv)))
      none
    pure ⟨sys, fields, raw_fields, cf⟩
  | none => pure ⟨sys, fields, raw_fields, none⟩

/-- Model of `ResourceFactory.create_asset`. -/
def create_asset (j : Json) : Except Err AssetObj := do
  let sys ← jgetE j "sys"
  let file ← jgetE (← jgetE j "fields") "file"
  let url ← jgetE file "url"
  let mt ← jgetE file "contentType"
  pure ⟨sys, [], jsonToPy url, jsonToPy mt⟩

/-- Model of `ResourceFactory.create_content_type`: the fields value is a list
of descriptors, each keyed by the `id` it carries, which is removed from the
stored copy. -/
def create_content_type (j : Json) : Except Err ContentTypeObj := do
  let sys ← jgetE j "sys"
  let fieldsJson ← jgetE j "fields"
  let fl ←
    match fieldsJson with
    | .jarr l => pure l
    | _ => throw .typeError
  let fields ← fl.foldlM
    (fun (acc : PDict) fj =>
      match fj with
      | .jobj o =>
        match jget fj "id" with
        | some idj =>
          pure (pSet acc (jsonToPy idj)
            (.vobj (jsonPairsToPy (o.filter (fun kv => kv.1 ≠ "id")))))
        | none => throw .keyError
      | _ => throw .typeError)
    []
  let name ← jgetE j "name"
  let disp :=
    match jget j "displayField" with
    | some v => jsonToPy v
    | none => .vnull
  pure ⟨sys, fields, jsonToPy name, disp⟩

/-- Model of `ResourceFactory.create_space`. -/
def create_space (j : Json) : Except Err SpaceObj := do
  let sys ← jgetE j "sys"
  let name ← jgetE j "name"
  pure ⟨sys, jsonToPy name⟩

/-- Python iteration over a JSON value: lists yield elements, dicts yield
their keys, strings yield their characters, anything else is a TypeError. -/
def pyIter (j : Json) : Except Err (List Json) :=
  match j with
  | .jarr l => .ok l
  | .jobj o => .ok (o.map (fun kv => .js kv.1))
  | .js s => .ok (s.data.map (fun c => .js ⟨[c]⟩))
  | _ => .error .typeError

/-- Python truthiness of a JSON value, for `json.get("includes") or ...`. -/
def jsonTruthy : Json → Bool
  | .null => false
  | .jb b => b
  | .jn n => n != 0
  | .js s => !s.isEmpty
  | .jarr l => !l.isEmpty
  | .jobj o => !o.isEmpty

/-- The `items_mapped` bucket a freshly decoded resource belongs to. -/
def bucketKind : Res → Option String
  | .asset _ => some "Asset"
  | .entry _ => some "Entry"
  | _ => none

/-- Python `processed.sys["id"]`. -/
def sysId (r : Res) : Except Err PyVal := do
  let idj ← jgetE (resSys r) "id"
  pure (jsonToPy idj)

/-- Python `array.items_mapped[key][id] = resource`: KeyError when the bucket
for `key` does not exist, overwrite otherwise. -/
def mappedInsert (m : Mapped) (key : String) (id : PyVal) (a : Nat) : Except Err Mapped :=
  match m with
  | [] => .error .keyError
  | (k, b) :: rest =>
    if k = key then .ok ((k, pSet b id a) :: rest)
    else do
      let rest' ← mappedInsert rest key id a
      pure ((k, b) :: rest')

/-- Python `items_mapped[lt]` where `lt` is an arbitrary value (the link type
carried by a placeholder): KeyError when no bucket has that name. -/
def mappedGet (m : Mapped) (lt : PyVal) : Except Err (List (PyVal × Nat)) :=
  match m with
  | [] => .error .keyError
  | (k, b) :: rest => if pyBeq (.vstr k) lt then .ok b else mappedGet rest lt

/-- Substring test on character lists, for Python `in` on strings. -/
def isSubChars (pat : List Char) : List Char → Bool
  | [] => pat.isEmpty
  | c :: rest => pat.isPrefixOf (c :: rest) || isSubChars pat rest

/-- Python `key in includes` for the possible shapes of the includes value. -/
def pyContains (j : Json) (key : String) : Except Err Bool :=
  match j with
  | .jobj o => .ok (o.any (fun kv => kv.1 = key))
  | .jarr l =>
    .ok (l.any (fun x =>
      match x with
      | .js s => s = key
      | _ => false))
  | .js s => .ok (isSubChars key.data s.data)
  | _ => .error .typeError

/-- Python `includes[key]` once membership held: only dicts support string
subscription. -/
def pyIndex (j : Json) (key : String) : Except Err Json :=
  match j with
  | .jobj _ => jgetE j key
  | _ => .error .typeError

mutual
/-- Model of `ResourceFactory.from_json`: dispatch on `sys.type`.  An
unrecognized tag yields no resource (Python returns None).  The fuel argument
only bounds recursion depth so that the definitions stay structurally
recursive; every invocation in the theorems below is conditioned on a
successful run, and any sufficiently large fuel is enough for a given input. -/
def from_json (em : List (PyVal × EntryClass)) :
    Nat → Heap → Json → Except Err (Heap × Option Nat)
  | 0, _, _ => throw .outOfFuel
  | fuel + 1, h, j => do
    let sys ← jgetE j "sys"
    let t ← jgetE sys "type"
    match t with
    | .js s =>
      if s = "Array" then do
        let r ← create_array em fuel h j
        pure (r.1, some r.2)
      else if s = "Entry" then do
        let e ← create_entry em j
        pure (h ++ [.entry e], some h.length)
      else if s = "Asset" then do
        let a ← create_asset j
        pure (h ++ [.asset a], some h.length)
      else if s = "ContentType" then do
        let c ← create_content_type j
        pure (h ++ [.ctype c], some h.length)
      else if s = "Space" then do
        let sp ← create_space j
        pure (h ++ [.space sp], some h.length)
      else pure (h, none)
    | _ => pure (h, none)

/-- Model of `ResourceFactory.process_array_items`: decode every item in
order, appending its address (or `none`) to `items`, and index Assets and
Entries by remote id. -/
def process_array_items (em : List (PyVal × EntryClass)) :
    Nat → Heap → List (Option Nat) × Mapped → List Json →
      Except Err (Heap × (List (Option Nat) × Mapped))
  | 0, _, _, _ => throw .outOfFuel
  | _ + 1, h, st, [] => pure (h, st)
  | fuel + 1, h, st, itemJ :: rest => do
    let r ← from_json em fuel h itemJ
    match r.2 with
    | none => process_array_items em fuel r.1 (st.1 ++ [none], st.2) rest
    | some a =>
      match r.1[a]? with
      | none => throw .keyError
      | some res =>
        match bucketKind res with
        | none => process_array_items em fuel r.1 (st.1 ++ [some a], st.2) rest
        | some key => do
          let id ← sysId res
          let m' ← mappedInsert st.2 key id a
          process_array_items em fuel r.1 (st.1 ++ [some a], m') rest

/-- Decoding of one includes bucket: every element is decoded and force
indexed under the bucket key; an element whose tag decoded to nothing makes
`processed.sys` raise AttributeError. -/
def process_includes_list (em : List (PyVal × EntryClass)) :
    Nat → Heap → Mapped → String → List Json → Except Err (Heap × Mapped)
  | 0, _, _, _, _ => throw .outOfFuel
  | _ + 1, h, m, _, [] => pure (h, m)
  | fuel + 1, h, m, key, j :: rest => do
    let r ← from_json em fuel h j
    match r.2 with
    | none => throw .attributeError
    | some a =>
      match r.1[a]? with
      | none => throw .keyError
      | some res => do
        let id ← sysId res
        let m' ← mappedInsert m key id a
        process_includes_list em fuel r.1 m' key rest

/-- Model of `ResourceFactory.process_array_includes`: for every existing
bucket key present in the includes value, merge the decoded resources in. -/
def process_array_includes (em : List (PyVal × EntryClass)) :
    Nat → Heap → Mapped → List String → Json → Except Err (Heap × Mapped)
  | 0, _, _, _, _ => throw .outOfFuel
  | _ + 1, h, m, [], _ => pure (h, m)
  | fuel + 1, h, m, key :: restKeys, incl => do
    let mem ← pyContains incl key
    if mem then do
      let lst ← pyIndex incl key
      let items ← pyIter lst
      let r ← process_includes_list em fuel h m key items
      process_array_includes em fuel r.1 r.2 restKeys incl
    else process_array_includes em fuel h m restKeys incl

/-- Model of `ResourceFactory.create_array`: paging metadata, the two
pre-seeded index buckets, item processing, then includes processing; the
array itself is allocated at the end (nothing references it). -/
def create_array (em : List (PyVal × EntryClass)) :
    Nat → Heap → Json → Except Err (Heap × Nat)
  | 0, _, _ => throw .outOfFuel
  | fuel + 1, h, j => do
    let sys ← jgetE j "sys"
    let total ← jgetE j "total"
    let skip ← jgetE j "skip"
    let limit ← jgetE j "limit"
    let itemsJson ← jgetE j "items"
    let items ← pyIter itemsJson
    let r1 ← process_array_items em fuel h ([], [("Asset", []), ("Entry", [])]) items
    let incl :=
      match jget j "includes" with
      | none => Json.jobj []
      | some jv => if jsonTruthy jv then jv else Json.jobj []
    let keys := r1.2.2.map (fun kv => kv.1)
    let r2 ← process_array_includes em fuel r1.1 r1.2.2 keys incl
    let arr : ArrayObj := ⟨sys, jsonToPy total, jsonToPy skip, jsonToPy limit, r1.2.1, r2.2⟩
    pure (r2.1 ++ [.arrRes arr], r2.1.length)
end

/-! Model of `Array.resolve_links` from resources.py.  In Python the two field
containers of a schema-bound entry share list objects, so the second pass over
a shared list sees it already resolved and stops at its first element; since
one resolution pass over a list is idempotent (proved below), transforming
each stored dict from its original value gives the same final state. -/

/-- Model of `Array._resolve_resource_link`:
`items_mapped[link.link_type].get(link.resource_id)` — KeyError when no
bucket matches the link type, a soft `none` when the id is not found. -/
def lookupLink (m : Mapped) (lt rid : PyVal) : Except Err (Option Nat) := do
  let b ← mappedGet m lt
  pure (pGet b rid)

/-- Resolution of the elements of a list-valued slot: walk the leading run of
placeholders, replacing each one whose target is found and leaving the
others, and stop at the first non-placeholder element. -/
def resolveSeq (m : Mapped) : List PyVal → Except Err (List PyVal)
  | [] => pure []
  | e :: rest =>
    match e with
    | .vlink lt rid => do
      let r ← lookupLink m lt rid
      let e' :=
        match r with
        | some a => PyVal.vref a
        | none => PyVal.vlink lt rid
      let rest' ← resolveSeq m rest
      pure (e' :: rest')
    | _ => pure (e :: rest)

/-- Resolution of one stored slot value: a placeholder is looked up and
replaced when found, a list gets the leading-run treatment, anything else is
untouched. -/
def slotVal (m : Mapped) (v : PyVal) : Except Err PyVal :=
  match v with
  | .vlink lt rid => do
    let r ← lookupLink m lt rid
    match r with
    | some a => pure (.vref a)
    | none => pure (.vlink lt rid)
  | .vlist l => do
    let l' ← resolveSeq m l
    pure (.vlist l')
  | v => pure v

/-- Resolution of a whole field container, slot by slot. -/
def resolveDict (m : Mapped) (d : PDict) : Except Err PDict :=
  d.mapM (fun kv => do
    let v' ← slotVal m kv.2
    pure (kv.1, v'))

/-- Python `getattr(resource, "_cf_cda", {})`. -/
def cfOf (r : Res) : PDict :=
  match r with
  | .entry e => e.cf_cda.getD []
  | _ => []

/-- Python `resource.fields`: Spaces and Arrays have no such attribute. -/
def fieldsOf (r : Res) : Except Err PDict :=
  match r with
  | .entry e => .ok e.fields
  | .asset a => .ok a.fields
  | .ctype c => .ok c.fields
  | .space _ => .error .attributeError
  | .arrRes _ => .error .attributeError

/-- Write back the two resolved containers into a resource. -/
def withResolved (r : Res) (cf fl : PDict) : Res :=
  match r with
  | .entry e => .entry { e with cf_cda := e.cf_cda.map (fun _ => cf), fields := fl }
  | .asset a => .asset { a with fields := fl }
  | .ctype c => .ctype { c with fields := fl }
  | r => r

/-- The pure per-resource resolution pass: first the typed storage, then the
raw field dict. -/
def resolveRes (m : Mapped) (r : Res) : Except Err Res := do
  let cf' ← resolveDict m (cfOf r)
  let fl' ← resolveDict m (← fieldsOf r)
  pure (withResolved r cf' fl')

/-- Resolution pass over one resource of the Entry bucket, writing the
rewritten resource back at its address. -/
def resolveStep (m : Mapped) (h : Heap) (a : Nat) : Except Err Heap :=
  match h[a]? with
  | none => throw .keyError
  | some r => do
    let r' ← resolveRes m r
    pure (h.set a r')

/-- Fold of the resolution pass over the Entry bucket in insertion order. -/
def resolveEntries (m : Mapped) (h : Heap) : List (PyVal × Nat) → Except Err Heap
  | [] => pure h
  | (_, a) :: rest => do
    let h' ← resolveStep m h a
    resolveEntries m h' rest

/-- Model of `Array.resolve_links`. -/
def resolve_links (h : Heap) (arr : ArrayObj) : Except Err Heap := do
  let eb ← mappedGet arr.items_mapped (.vstr "Entry")
  resolveEntries arr.items_mapped h eb

/-! Lemmas about decimal printing and parsing, leading to the fact that the
date parser recovers every valid datetime from its Python string form. -/

theorem digitChar_isDigit {d : Nat} (h : d < 10) : (Nat.digitChar d).isDigit = true := by
  interval_cases d <;> decide

theorem digitVal_digitChar {d : Nat} (h : d < 10) : digitVal (Nat.digitChar d) = d := by
  interval_cases d <;> decide

theorem natCharsAux_digits :
    ∀ fuel n, ∀ c ∈ natCharsAux fuel n, c.isDigit = true := by
  intro fuel
  induction fuel with
  | zero => intro n c hc; simp [natCharsAux] at hc
  | succ f ih =>
    intro n c hc
    by_cases h : n = 0
    · simp [natCharsAux, h] at hc
    · simp only [natCharsAux, if_neg h] at hc
      rcases List.mem_append.mp hc with h1 | h2
      · exact ih _ _ h1
      · simp only [List.mem_singleton] at h2
        subst h2
        exact digitChar_isDigit (Nat.mod_lt _ (by omega))

theorem digitsVal_go_natCharsAux :
    ∀ fuel n a, n ≤ fuel →
      (natCharsAux fuel n).foldl (fun a c => 10 * a + digitVal c) a
        = a * 10 ^ (natCharsAux fuel n).length + n := by
  intro fuel
  induction fuel with
  | zero =>
    intro n a hn
    have : n = 0 := by omega
    simp [natCharsAux, this]
  | succ f ih =>
    intro n a hn
    by_cases h : n = 0
    · simp [natCharsAux, h]
    · simp only [natCharsAux, if_neg h]
      rw [List.foldl_append]
      have hrec : n / 10 ≤ f := by
        have : n / 10 < n := Nat.div_lt_self (Nat.pos_of_ne_zero h) (by norm_num)
        omega
      rw [ih (n / 10) a hrec]
      simp only [List.foldl_cons, List.foldl_nil, List.length_append,
        List.length_singleton]
      rw [digitVal_digitChar (Nat.mod_lt _ (by omega))]
      have hdm : 10 * (n / 10) + n % 10 = n := Nat.div_add_mod n 10
      have hpow : 10 ^ ((natCharsAux f (n / 10)).length + 1)
          = 10 ^ (natCharsAux f (n / 10)).length * 10 := pow_succ 10 _
      rw [hpow]
      ring_nf
      omega

theorem natCharsAux_length_le :
    ∀ fuel n w, n ≤ fuel → n < 10 ^ w → (natCharsAux fuel n).length ≤ w := by
  intro fuel
  induction fuel with
  | zero => intro n w _ _; simp [natCharsAux]
  | succ f ih =>
    intro n w hn hw
    by_cases h : n = 0
    · simp [natCharsAux, h]
    · cases w with
      | zero => simp at hw; omega
      | succ w' =>
        simp only [natCharsAux, if_neg h, List.length_append, List.length_singleton]
        have h1 : n / 10 ≤ f := by
          have : n / 10 < n := Nat.div_lt_self (Nat.pos_of_ne_zero h) (by norm_num)
          omega
        have h2 : n / 10 < 10 ^ w' := by
          rw [Nat.div_lt_iff_lt_mul (by omega)]
          calc n < 10 ^ (w' + 1) := hw
          _ = 10 ^ w' * 10 := pow_succ 10 w'
        have := ih (n / 10) w' h1 h2
        omega

theorem natChars_digits : ∀ c ∈ natChars n, c.isDigit = true :=
  fun c hc => natCharsAux_digits n n c hc

theorem padNum_digits {w n : Nat} : ∀ c ∈ padNum w n, c.isDigit = true := by
  intro c hc
  rcases List.mem_append.mp hc with h1 | h2
  · rw [List.eq_of_mem_replicate h1]; decide
  · exact natChars_digits _ h2

theorem foldl_zero_replicate :
    ∀ k, List.foldl (fun a c => 10 * a + digitVal c) 0 (List.replicate k '0') = 0 := by
  intro k
  induction k with
  | zero => rfl
  | succ k ih => simpa [List.replicate_succ, digitVal] using ih

theorem digitsVal_padNum {w n : Nat} : digitsVal (padNum w n) = n := by
  unfold digitsVal padNum
  rw [List.foldl_append, foldl_zero_replicate]
  have := digitsVal_go_natCharsAux n n 0 le_rfl
  simpa [natChars] using this

theorem padNum_length {w n : Nat} :
    (padNum w n).length = max w (natChars n).length := by
  simp only [padNum, List.length_append, List.length_replicate]
  omega

theorem padNum_ne_nil {w n : Nat} (h : 1 ≤ w) : padNum w n ≠ [] := by
  intro hc
  have := padNum_length (w := w) (n := n)
  rw [hc] at this
  simp at this
  omega

theorem parseNatChars_padNum {w n : Nat} (h : 1 ≤ w) :
    parseNatChars (padNum w n) = some n := by
  unfold parseNatChars
  rw [if_neg (by simpa [List.isEmpty_iff] using padNum_ne_nil h)]
  rw [if_pos (by simpa [allDigits, List.all_eq_true] using fun c hc => padNum_digits c hc)]
  exact congrArg some digitsVal_padNum

theorem padNum_length_eq {w n : Nat} (h : n < 10 ^ w) : (padNum w n).length = w := by
  rw [padNum_length]
  have := natCharsAux_length_le n n w le_rfl h
  simp only [natChars] at *
  omega

/-! Splitting lemmas. -/

theorem splitOnChar_ne_nil {c : Char} : ∀ l, splitOnChar c l ≠ [] := by
  intro l
  induction l with
  | nil => simp [splitOnChar]
  | cons x xs ih =>
    simp only [splitOnChar]
    rcases hs : splitOnChar c xs with _ | ⟨h, t⟩
    · exact absurd hs ih
    · by_cases hx : x = c <;> simp [hx]

theorem splitOnChar_not_mem {c : Char} {l : List Char} (h : ∀ x ∈ l, x ≠ c) :
    splitOnChar c l = [l] := by
  induction l with
  | nil => rfl
  | cons x xs ih =>
    have hx : x ≠ c := h x (List.mem_cons_self x xs)
    have hrec := ih (fun y hy => h y (List.mem_cons_of_mem x hy))
    simp only [splitOnChar, hrec, if_neg hx]

theorem splitOnChar_append {c : Char} {l1 l2 : List Char} (h : ∀ x ∈ l1, x ≠ c) :
    splitOnChar c (l1 ++ c :: l2) = l1 :: splitOnChar c l2 := by
  induction l1 with
  | nil =>
    simp only [List.nil_append, splitOnChar]
    rcases hs : splitOnChar c l2 with _ | ⟨hd, t⟩
    · exact absurd hs (splitOnChar_ne_nil l2)
    · simp
  | cons x xs ih =>
    have hx : x ≠ c := h x (List.mem_cons_self x xs)
    have hrec := ih (fun y hy => h y (List.mem_cons_of_mem x hy))
    simp only [List.cons_append, splitOnChar, List.append_eq, hrec, if_neg hx]

theorem splitFirst_not_mem {p : Char → Bool} {l : List Char}
    (h : ∀ x ∈ l, p x = false) : splitFirst p l = (l, none) := by
  induction l with
  | nil => rfl
  | cons x xs ih =>
    have hx := h x (List.mem_cons_self x xs)
    have hrec := ih (fun y hy => h y (List.mem_cons_of_mem x hy))
    simp [splitFirst, hx, hrec]

theorem splitFirst_append {p : Char → Bool} {l1 l2 : List Char} {x : Char}
    (h : ∀ y ∈ l1, p y = false) (hx : p x = true) :
    splitFirst p (l1 ++ x :: l2) = (l1, some (x, l2)) := by
  induction l1 with
  | nil => simp [splitFirst, hx]
  | cons y ys ih =>
    have hy := h y (List.mem_cons_self y ys)
    have hrec := ih (fun z hz => h z (List.mem_cons_of_mem y hz))
    simp [splitFirst, hy, hrec]

/-! Roundtrip: the date parser recovers a valid datetime from its Python
string form, which is what the Date coercion does to a datetime input. -/

theorem ne_of_isDigit {c d : Char} (hc : c.isDigit = true) (hd : d.isDigit = false) :
    c ≠ d := by
  intro he
  rw [he] at hc
  rw [hc] at hd
  exact Bool.noConfusion hd

theorem parseNat_pad2 (n : Nat) : parseNatChars (padNum 2 n) = some n :=
  parseNatChars_padNum (by norm_num)

theorem parseDatePart_dateChars {y mo d : Nat} :
    parseDatePart (dateChars y mo d) = some (y, mo, d) := by
  unfold parseDatePart dateChars
  have h4 : ∀ x ∈ padNum 4 y, x ≠ '-' :=
    fun x hx => ne_of_isDigit (padNum_digits x hx) (by decide)
  have h2 : ∀ x ∈ padNum 2 mo, x ≠ '-' :=
    fun x hx => ne_of_isDigit (padNum_digits x hx) (by decide)
  have h2d : ∀ x ∈ padNum 2 d, x ≠ '-' :=
    fun x hx => ne_of_isDigit (padNum_digits x hx) (by decide)
  have e1 : parseNatChars (padNum 4 y) = some y := parseNatChars_padNum (by norm_num)
  simp only [List.append_assoc, List.cons_append]
  rw [splitOnChar_append h4, splitOnChar_append h2, splitOnChar_not_mem h2d]
  simp [e1, parseNat_pad2]

theorem fracChars_class {u : Nat} :
    ∀ c ∈ fracChars u, c.isDigit = true ∨ c = '.' := by
  intro c hc
  unfold fracChars at hc
  by_cases h : u = 0
  · simp [h] at hc
  · rw [if_neg h] at hc
    rcases List.mem_cons.mp hc with h1 | h2
    · right; exact h1
    · left; exact padNum_digits c h2

theorem parseFrac_padNum {u : Nat} (hu : u ≤ 999999) :
    parseFrac (padNum 6 u) = some u := by
  have hlen : (padNum 6 u).length = 6 := padNum_length_eq (by omega)
  have hne : (padNum 6 u).isEmpty = false := by
    cases hp : padNum 6 u with
    | nil => rw [hp] at hlen; simp at hlen
    | cons a l => simp
  have hall : allDigits (padNum 6 u) = true := by
    simpa [allDigits, List.all_eq_true] using fun c hc => padNum_digits c hc
  have htake : ((padNum 6 u ++ List.replicate 6 '0').take 6) = padNum 6 u :=
    List.take_left' hlen
  simp only [parseFrac, hne, hall, Bool.false_eq_true, if_false, eq_self_iff_true, if_true]
  rw [htake, digitsVal_padNum]

theorem parseSecFrac_chars {s u : Nat} (hu : u ≤ 999999) :
    parseSecFrac (padNum 2 s ++ fracChars u) = some (s, u) := by
  unfold parseSecFrac
  by_cases h : u = 0
  · subst h
    rw [show fracChars 0 = ([] : List Char) from rfl, List.append_nil]
    rw [splitOnChar_not_mem
      (fun x hx => ne_of_isDigit (padNum_digits x hx) (by decide))]
    simp [parseNat_pad2]
  · rw [show fracChars u = '.' :: padNum 6 u from if_neg h]
    rw [splitOnChar_append
      (fun x hx => ne_of_isDigit (padNum_digits x hx) (by decide)),
      splitOnChar_not_mem
      (fun x hx => ne_of_isDigit (padNum_digits x hx) (by decide))]
    simp [parseNat_pad2, parseFrac_padNum hu]

theorem parseTimeBase_chars {h mi s u : Nat} (hu : u ≤ 999999) :
    parseTimeBase (padNum 2 h ++ ':' :: (padNum 2 mi ++ ':' :: (padNum 2 s ++ fracChars u)))
      = some (h, mi, s, u) := by
  unfold parseTimeBase
  have hnc1 : ∀ x ∈ padNum 2 h, x ≠ ':' :=
    fun x hx => ne_of_isDigit (padNum_digits x hx) (by decide)
  have hnc2 : ∀ x ∈ padNum 2 mi, x ≠ ':' :=
    fun x hx => ne_of_isDigit (padNum_digits x hx) (by decide)
  have hnc3 : ∀ x ∈ padNum 2 s ++ fracChars u, x ≠ ':' := by
    intro x hx
    rcases List.mem_append.mp hx with h1 | h2
    · exact ne_of_isDigit (padNum_digits x h1) (by decide)
    · rcases fracChars_class x h2 with hd | hd
      · exact ne_of_isDigit hd (by decide)
      · rw [hd]; decide
  rw [splitOnChar_append hnc1, splitOnChar_append hnc2, splitOnChar_not_mem hnc3]
  simp [parseNat_pad2, parseSecFrac_chars hu]

theorem parseOffset_tz {off : Int} (hoff : off.natAbs ≤ 1439) :
    parseOffset (if off < 0 then '-' else '+')
      (padNum 2 (off.natAbs / 60) ++ ':' :: padNum 2 (off.natAbs % 60)) = some off := by
  have hA : off.natAbs / 60 ≤ 23 := by omega
  have hB : off.natAbs % 60 ≤ 59 := by omega
  have hsplit : splitOnChar ':' (padNum 2 (off.natAbs / 60) ++ ':' :: padNum 2 (off.natAbs % 60))
      = [padNum 2 (off.natAbs / 60), padNum 2 (off.natAbs % 60)] := by
    rw [splitOnChar_append
      (fun x hx => ne_of_isDigit (padNum_digits x hx) (by decide)),
      splitOnChar_not_mem
      (fun x hx => ne_of_isDigit (padNum_digits x hx) (by decide))]
  rcases lt_or_ge off 0 with hlt | hge
  · rw [if_pos hlt]
    unfold parseOffset
    rw [hsplit]
    simp only [parseNat_pad2, Option.bind_eq_bind, Option.some_bind, hA, hB,
      and_self, if_true, Option.pure_def, Option.some.injEq]
    omega
  · rw [if_neg (by omega : ¬ off < 0)]
    unfold parseOffset
    rw [hsplit]
    simp only [parseNat_pad2, Option.bind_eq_bind, Option.some_bind, hA, hB,
      and_self, if_true, Option.pure_def, Option.some.injEq]
    rw [if_neg (by decide : ¬ ('+' = '-'))]
    omega

theorem dateChars_class {y mo d : Nat} :
    ∀ c ∈ dateChars y mo d, c.isDigit = true ∨ c = '-' := by
  intro c hc
  unfold dateChars at hc
  simp only [List.append_assoc, List.cons_append, List.mem_append, List.mem_cons] at hc
  rcases hc with h1 | h2 | h3 | h4 | h5
  · exact Or.inl (padNum_digits c h1)
  · exact Or.inr h2
  · exact Or.inl (padNum_digits c h3)
  · exact Or.inr h4
  · exact Or.inl (padNum_digits c h5)

theorem timeBase_class {h mi s u : Nat} :
    ∀ c ∈ padNum 2 h ++ ':' :: (padNum 2 mi ++ ':' :: (padNum 2 s ++ fracChars u)),
      c.isDigit = true ∨ c = ':' ∨ c = '.' := by
  intro c hc
  simp only [List.mem_append, List.mem_cons] at hc
  rcases hc with h1 | h2 | h3 | h4 | h5 | h6
  · exact Or.inl (padNum_digits c h1)
  · exact Or.inr (Or.inl h2)
  · exact Or.inl (padNum_digits c h3)
  · exact Or.inr (Or.inl h4)
  · exact Or.inl (padNum_digits c h5)
  · rcases fracChars_class c h6 with hd | hd
    · exact Or.inl hd
    · exact Or.inr (Or.inr hd)

theorem tzChars_class {tz : Option Int} :
    ∀ c ∈ tzChars tz, c.isDigit = true ∨ c = ':' ∨ c = '+' ∨ c = '-' := by
  intro c hc
  cases tz with
  | none => simp [tzChars] at hc
  | some off =>
    simp only [tzChars, List.cons_append, List.mem_cons, List.mem_append] at hc
    rcases hc with h1 | h2 | h3 | h4
    · subst h1
      by_cases hlt : off < 0
      · rw [if_pos hlt]; right; right; right; rfl
      · rw [if_neg hlt]; right; right; left; rfl
    · exact Or.inl (padNum_digits c h2)
    · exact Or.inr (Or.inl h3)
    · exact Or.inl (padNum_digits c h4)

/-- The date parser recovers every valid datetime value from its Python
string form. -/
theorem dparse_datetime {y mo d h mi s u : Nat} {tz : Option Int}
    (hy1 : 1 ≤ y) (hy2 : y ≤ 9999) (hmo1 : 1 ≤ mo) (hmo2 : mo ≤ 12)
    (hd1 : 1 ≤ d) (hd2 : d ≤ 31) (hh : h ≤ 23) (hmi : mi ≤ 59) (hs : s ≤ 59)
    (hu : u ≤ 999999) (htz : ∀ off ∈ tz, off.natAbs ≤ 1439) :
    dparseChars (datetimeChars y mo d h mi s u tz) = .ok (.vdate y mo d h mi s u tz) := by
  have hspace : ' ' ∈ datetimeChars y mo d h mi s u tz := by
    unfold datetimeChars
    exact List.mem_append.mpr (Or.inr (List.mem_cons_self _ _))
  have hnotall : ¬(allDigits (datetimeChars y mo d h mi s u tz) = true ∧
      (datetimeChars y mo d h mi s u tz).length = 8) := by
    rintro ⟨ha, _⟩
    have := List.all_eq_true.mp ha ' ' hspace
    simp at this
  have hfirst : splitFirst (fun c => c = ' ' || c = 'T') (datetimeChars y mo d h mi s u tz)
      = (dateChars y mo d,
          some (' ', padNum 2 h ++ ':' :: padNum 2 mi ++ ':' :: padNum 2 s
            ++ fracChars u ++ tzChars tz)) := by
    unfold datetimeChars
    exact splitFirst_append
      (fun x hx => by
        rcases dateChars_class x hx with hd | hd
        · simp only [decide_eq_false (show x ≠ ' ' from ne_of_isDigit hd (by decide)),
            decide_eq_false (show x ≠ 'T' from ne_of_isDigit hd (by decide)), Bool.or_false]
        · subst hd; decide)
      (by decide)
  have hT : padNum 2 h ++ ':' :: padNum 2 mi ++ ':' :: padNum 2 s ++ fracChars u ++ tzChars tz
      = (padNum 2 h ++ ':' :: (padNum 2 mi ++ ':' :: (padNum 2 s ++ fracChars u))) ++ tzChars tz := by
    simp [List.append_assoc]
  have hbaseNoZ : ∀ x ∈ padNum 2 h ++ ':' :: (padNum 2 mi ++ ':' :: (padNum 2 s ++ fracChars u)),
      (fun c => decide (c = 'Z')) x = false := by
    intro x hx
    rcases timeBase_class x hx with hd | hd | hd
    · exact decide_eq_false (ne_of_isDigit hd (by decide))
    · subst hd; decide
    · subst hd; decide
  have hbaseNoSign : ∀ x ∈ padNum 2 h ++ ':' :: (padNum 2 mi ++ ':' :: (padNum 2 s ++ fracChars u)),
      (fun c => c = '+' || c = '-') x = false := by
    intro x hx
    rcases timeBase_class x hx with hd | hd | hd
    · simp only [decide_eq_false (show x ≠ '+' from ne_of_isDigit hd (by decide)),
        decide_eq_false (show x ≠ '-' from ne_of_isDigit hd (by decide)), Bool.or_false]
    · subst hd; decide
    · subst hd; decide
  have hTP : parseTimePart (padNum 2 h ++ ':' :: padNum 2 mi ++ ':' :: padNum 2 s
      ++ fracChars u ++ tzChars tz) = some (h, mi, s, u, tz) := by
    rw [hT]
    unfold parseTimePart
    cases tz with
    | none =>
      rw [show tzChars none = ([] : List Char) from rfl, List.append_nil]
      rw [splitFirst_not_mem hbaseNoZ]
      simp only [splitFirst_not_mem hbaseNoSign, parseTimeBase_chars hu,
        Option.bind_eq_bind, Option.some_bind, Option.pure_def]
    | some off =>
      have hoff : off.natAbs ≤ 1439 := htz off rfl
      rw [show tzChars (some off) = (if off < 0 then '-' else '+') ::
          (padNum 2 (off.natAbs / 60) ++ ':' :: padNum 2 (off.natAbs % 60)) from rfl]
      have hsign : (fun c => c = '+' || c = '-') (if off < 0 then '-' else '+') = true := by
        by_cases hlt : off < 0
        · rw [if_pos hlt]; decide
        · rw [if_neg hlt]; decide
      have hnoZ : ∀ x ∈ (padNum 2 h ++ ':' :: (padNum 2 mi ++ ':' :: (padNum 2 s ++ fracChars u)))
          ++ (if off < 0 then '-' else '+') ::
            (padNum 2 (off.natAbs / 60) ++ ':' :: padNum 2 (off.natAbs % 60)),
          (fun c => decide (c = 'Z')) x = false := by
        intro x hx
        rcases List.mem_append.mp hx with h1 | h2
        · exact hbaseNoZ x h1
        · rcases List.mem_cons.mp h2 with h3 | h4
          · subst h3
            by_cases hlt : off < 0
            · rw [if_pos hlt]; decide
            · rw [if_neg hlt]; decide
          · rcases List.mem_append.mp h4 with h5 | h6
            · exact decide_eq_false (ne_of_isDigit (padNum_digits x h5) (by decide))
            · rcases List.mem_cons.mp h6 with h7 | h8
              · subst h7; decide
              · exact decide_eq_false (ne_of_isDigit (padNum_digits x h8) (by decide))
      rw [splitFirst_not_mem hnoZ]
      simp only [splitFirst_append hbaseNoSign hsign, parseTimeBase_chars hu,
        parseOffset_tz hoff, Option.bind_eq_bind, Option.some_bind, Option.pure_def]
  have hvd : validDate y mo d := ⟨hy1, hy2, hmo1, hmo2, hd1, hd2⟩
  have hvt : validTime h mi s := ⟨hh, hmi, hs⟩
  unfold dparseChars
  rw [if_neg hnotall]
  simp only [hfirst, parseDatePart_dateChars, hvd, if_true, hTP, hvt]

/-! Lemmas about the Python integer parser: a character that is not
whitespace, not a digit, not an underscore and not a sign anywhere in the
input makes the parse fail. -/

theorem digitsUnd_all :
    ∀ l, digitsUnd l = true → ∀ c ∈ l, c.isDigit = true ∨ c = '_'
  | [], h => by simp [digitsUnd] at h
  | [c0], h => by
    intro c hc
    simp only [List.mem_singleton] at hc
    subst hc
    left
    simpa [digitsUnd] using h
  | c0 :: c2 :: rest, h => by
    intro c hc
    simp only [digitsUnd] at h
    by_cases hd : c0.isDigit
    · rw [if_pos hd] at h
      by_cases h2 : c2 = '_'
      · rw [if_pos h2] at h
        cases rest with
        | nil => simp at h
        | cons r rs =>
          rcases List.mem_cons.mp hc with rfl | hc2
          · exact Or.inl hd
          · rcases List.mem_cons.mp hc2 with rfl | hc3
            · exact Or.inr h2
            · exact digitsUnd_all (r :: rs) h c hc3
      · rw [if_neg h2] at h
        rcases List.mem_cons.mp hc with rfl | hc2
        · exact Or.inl hd
        · exact digitsUnd_all (c2 :: rest) h c hc2
    · rw [if_neg hd] at h
      exact absurd h (by simp)

theorem digitsUnd_false_of_mem {l : List Char} {c : Char} (hm : c ∈ l)
    (h1 : c.isDigit = false) (h2 : c ≠ '_') : digitsUnd l = false := by
  cases hDU : digitsUnd l with
  | false => rfl
  | true =>
    rcases digitsUnd_all l hDU c hm with hd | hd
    · rw [h1] at hd; exact absurd hd (by simp)
    · exact absurd hd h2

theorem mem_dropWhile {p : Char → Bool} {c : Char} (hc : p c = false) :
    ∀ {l : List Char}, c ∈ l → c ∈ l.dropWhile p := by
  intro l
  induction l with
  | nil => intro h; cases h
  | cons x xs ih =>
    intro h
    by_cases hx : p x
    · rw [List.dropWhile_cons_of_pos hx]
      rcases List.mem_cons.mp h with rfl | h2
      · rw [hc] at hx; exact absurd hx (by simp)
      · exact ih h2
    · rw [List.dropWhile_cons_of_neg hx]
      exact h

theorem mem_trimChars {cs : List Char} {c : Char} (hsp : isPySpace c = false)
    (hm : c ∈ cs) : c ∈ trimChars cs := by
  unfold trimChars
  rw [List.mem_reverse]
  exact mem_dropWhile hsp (List.mem_reverse.mpr (mem_dropWhile hsp hm))

theorem parseIntCore_none {t : List Char} {c : Char} (hm : c ∈ t)
    (h1 : c.isDigit = false) (h2 : c ≠ '_') (h3 : c ≠ '+') (h4 : c ≠ '-') :
    parseIntCore t = none := by
  cases t with
  | nil => rfl
  | cons c0 rest =>
    simp only [parseIntCore]
    by_cases e1 : c0 = '+'
    · rw [if_pos e1]
      have hcr : c ∈ rest := by
        rcases List.mem_cons.mp hm with rfl | h
        · exact absurd e1 h3
        · exact h
      rw [digitsUnd_false_of_mem hcr h1 h2]
      simp
    · rw [if_neg e1]
      by_cases e2 : c0 = '-'
      · rw [if_pos e2]
        have hcr : c ∈ rest := by
          rcases List.mem_cons.mp hm with rfl | h
          · exact absurd e2 h4
          · exact h
        rw [digitsUnd_false_of_mem hcr h1 h2]
        simp
      · rw [if_neg e2, digitsUnd_false_of_mem hm h1 h2]
        simp

theorem parseIntChars_none_of_mem {cs : List Char} {c : Char} (hm : c ∈ cs)
    (hsp : isPySpace c = false) (h1 : c.isDigit = false) (h2 : c ≠ '_')
    (h3 : c ≠ '+') (h4 : c ≠ '-') : parseIntChars cs = none :=
  parseIntCore_none (mem_trimChars hsp hm) h1 h2 h3 h4

/-- The target representation of each declared field type: the shape of value
the coercion engine produces for that type (for Date, the datetimes the
permissive parser can output; for Link, the placeholder shape the graph
builder produces; Location values are never coerced at all). -/
def inTargetRepr (v : PyVal) : FieldType → Prop
  | .boolean => ∃ b, v = .vbool b
  | .date => ∃ y mo d h mi s u tz, v = .vdate y mo d h mi s u tz ∧
      1 ≤ y ∧ y ≤ 9999 ∧ 1 ≤ mo ∧ mo ≤ 12 ∧ 1 ≤ d ∧ d ≤ 31 ∧
      h ≤ 23 ∧ mi ≤ 59 ∧ s ≤ 59 ∧ u ≤ 999999 ∧ ∀ off ∈ tz, off.natAbs ≤ 1439
  | .number => ∃ n, v = .vint n
  | .object => ∃ o, v = .vobj o
  | .text => ∃ s, v = .vstr s
  | .symbol => ∃ s, v = .vstr s
  | .list => ∃ l, v = .vlist l
  | .multipleAssets => ∃ l, v = .vlist l
  | .multipleEntries => ∃ l, v = .vlist l
  | .link => ∃ lt rid, v = .vlink lt rid
  | .location => True

/-- C7: for every declared field type T and every value already in the target
representation of T, the coercion returns the value unchanged. -/
theorem C7_idempotent_coercion (t : FieldType) (fid : String) (v : PyVal)
    (h : inTargetRepr v t) : convert_value v ⟨t, fid⟩ = .ok v := by
  cases t with
  | boolean => obtain ⟨b, rfl⟩ := h; simp [convert_value, isinstBool]
  | date =>
    obtain ⟨y, mo, d, hh, mi, s2, u, tz, rfl, hy1, hy2, hmo1, hmo2, hd1, hd2,
      hhh, hmi, hs, hu, htz⟩ := h
    show dparseChars (pyStrChars (.vdate y mo d hh mi s2 u tz)) = _
    rw [show pyStrChars (.vdate y mo d hh mi s2 u tz)
        = datetimeChars y mo d hh mi s2 u tz from rfl]
    exact dparse_datetime hy1 hy2 hmo1 hmo2 hd1 hd2 hhh hmi hs hu htz
  | number => obtain ⟨n, rfl⟩ := h; simp [convert_value, isinstInt]
  | object => obtain ⟨o, rfl⟩ := h; simp [convert_value, isinstDict]
  | text => obtain ⟨s, rfl⟩ := h; simp [convert_value, isinstStr]
  | symbol => obtain ⟨s, rfl⟩ := h; simp [convert_value, isinstStr]
  | list => obtain ⟨l, rfl⟩ := h; simp [convert_value, isinstList]
  | multipleAssets => obtain ⟨l, rfl⟩ := h; simp [convert_value, isinstList]
  | multipleEntries => obtain ⟨l, rfl⟩ := h; simp [convert_value, isinstList]
  | link => rfl
  | location => rfl

/-- Witness for C7 at a concrete datetime value under the Date type. -/
theorem C7_idempotent_coercion_witness :
    inTargetRepr (.vdate 2013 11 18 9 13 37 808000 (some 0)) .date ∧
      convert_value (.vdate 2013 11 18 9 13 37 808000 (some 0)) ⟨.date, "birthday"⟩
        = .ok (.vdate 2013 11 18 9 13 37 808000 (some 0)) := by
  have hin : inTargetRepr (.vdate 2013 11 18 9 13 37 808000 (some 0)) .date := by
    refine ⟨2013, 11, 18, 9, 13, 37, 808000, some 0, rfl, ?_, ?_, ?_, ?_, ?_, ?_,
      ?_, ?_, ?_, ?_, ?_⟩ <;> first
      | omega
      | (intro off hoff; simp only [Option.mem_def, Option.some.injEq] at hoff
         subst hoff; decide)
  exact ⟨hin, C7_idempotent_coercion .date "birthday" _ hin⟩

/-- C9: the Date coercion stringifies every non-string input and feeds the
result to the permissive parser; the two documented examples evaluate to the
stated calendar components. -/
theorem C9_date_coercion :
    (∀ (v : PyVal) (fid : String), isinstStr v = false →
        convert_value v ⟨.date, fid⟩ = dparseChars (pyStrChars v)) ∧
    (∀ (s fid : String), convert_value (.vstr s) ⟨.date, fid⟩ = dparseChars s.data) ∧
    convert_value (.vstr "2013-11-18T09:13:37.808Z") ⟨.date, "d"⟩
      = .ok (.vdate 2013 11 18 9 13 37 808000 (some 0)) ∧
    convert_value (.vint 20130101) ⟨.date, "d"⟩ = .ok (.vdate 2013 1 1 0 0 0 0 none) := by
  refine ⟨?_, fun s fid => rfl, by decide, by decide⟩
  intro v fid _h
  cases v <;> rfl

/-- Witness for C9 discharging the non-string hypothesis at the integer
example. -/
theorem C9_date_coercion_witness :
    isinstStr (.vint 20130101) = false ∧
      convert_value (.vint 20130101) ⟨.date, "d"⟩
        = dparseChars (pyStrChars (.vint 20130101)) :=
  ⟨rfl, C9_date_coercion.1 (.vint 20130101) "d" rfl⟩

/-- C6: the Number coercion passes integral values through unchanged, and on
any other value agrees with the base-10 integer parse of the string form of
the value: it yields exactly the parsed integer when that parse succeeds and
raises when the string form is not a valid integer literal.  The documented
example parses to its numeric value. -/
theorem C6_number_coercion :
    (∀ (v : PyVal) (fid : String), isinstInt v = true →
        convert_value v ⟨.number, fid⟩ = .ok v) ∧
    (∀ (v : PyVal) (fid : String), isinstInt v = false →
        convert_value v ⟨.number, fid⟩ = (pyToInt v).map PyVal.vint ∧
        ((∃ n, pyToInt v = .ok n ∧ parseIntChars (pyStrChars v) = some n) ∨
          ((∃ e, pyToInt v = .error e) ∧ parseIntChars (pyStrChars v) = none))) ∧
    convert_value (.vstr "1234567890") ⟨.number, "num"⟩ = .ok (.vint 1234567890) := by
  refine ⟨?_, ?_, by decide⟩
  · intro v fid h
    cases v with
    | vint n => simp [convert_value, isinstInt]
    | vbool b => simp [convert_value, isinstInt]
    | vnull => simp [isinstInt] at h
    | vstr s => simp [isinstInt] at h
    | vlist l => simp [isinstInt] at h
    | vobj o => simp [isinstInt] at h
    | vlink lt rid => simp [isinstInt] at h
    | vref a => simp [isinstInt] at h
    | vdate y mo d hh mi s2 u tz => simp [isinstInt] at h
  · intro v fid h
    constructor
    · simp only [convert_value]
      rw [h]
      simp only [Bool.false_eq_true, if_false]
      cases hv : pyToInt v <;> simp [hv, Except.map]
    · cases v with
      | vint n => simp [isinstInt] at h
      | vbool b => simp [isinstInt] at h
      | vstr s =>
        rcases hp : parseIntChars s.data with _ | n
        · exact Or.inr ⟨⟨.valueError, by simp [pyToInt, hp]⟩, by simpa [pyStrChars] using hp⟩
        · exact Or.inl ⟨n, by simp [pyToInt, hp], by simpa [pyStrChars] using hp⟩
      | vnull => exact Or.inr ⟨⟨.typeError, rfl⟩, by decide⟩
      | vlist l =>
        refine Or.inr ⟨⟨.typeError, rfl⟩, ?_⟩
        exact parseIntChars_none_of_mem (c := '[')
          (by exact List.mem_cons_self _ _) (by decide) (by decide) (by decide)
          (by decide) (by decide)
      | vobj o =>
        refine Or.inr ⟨⟨.typeError, rfl⟩, ?_⟩
        exact parseIntChars_none_of_mem (c := '\x7b')
          (by exact List.mem_cons_self _ _) (by decide) (by decide) (by decide)
          (by decide) (by decide)
      | vlink lt rid =>
        refine Or.inr ⟨⟨.typeError, rfl⟩, ?_⟩
        rw [show pyStrChars (.vlink lt rid) = "<ResourceLink>".data from rfl]
        decide
      | vref a =>
        refine Or.inr ⟨⟨.typeError, rfl⟩, ?_⟩
        rw [show pyStrChars (.vref a) = "<Resource>".data from rfl]
        decide
      | vdate y mo d hh mi s2 u tz =>
        refine Or.inr ⟨⟨.typeError, rfl⟩, ?_⟩
        refine parseIntChars_none_of_mem (c := ':') ?_ (by decide) (by decide)
          (by decide) (by decide) (by decide)
        show ':' ∈ pyStrChars (.vdate y mo d hh mi s2 u tz)
        rw [show pyStrChars (.vdate y mo d hh mi s2 u tz)
            = datetimeChars y mo d hh mi s2 u tz from rfl]
        unfold datetimeChars
        simp [List.mem_append]

/-- Witness for C6 discharging both hypotheses at concrete inputs. -/
theorem C6_number_coercion_witness :
    (isinstInt (.vint 7) = true ∧ convert_value (.vint 7) ⟨.number, "n"⟩ = .ok (.vint 7)) ∧
    (isinstInt (.vstr "12") = false ∧
      convert_value (.vstr "12") ⟨.number, "n"⟩ = (pyToInt (.vstr "12")).map PyVal.vint) :=
  ⟨⟨rfl, C6_number_coercion.1 (.vint 7) "n" rfl⟩,
    ⟨rfl, (C6_number_coercion.2.1 (.vstr "12") "n" rfl).1⟩⟩

/-! Lemmas about the resolution pass. -/

@[simp] theorem bindE_ok {α β : Type} (a : α) (f : α → Except Err β) :
    (do let x ← Except.ok a; f x : Except Err β) = f a := rfl

@[simp] theorem bindE_err {α β : Type} (e : Err) (f : α → Except Err β) :
    (do let x ← (Except.error e : Except Err α); f x : Except Err β) = Except.error e := rfl

@[simp] theorem mapE_ok {α β : Type} (a : α) (f : α → β) :
    (f <$> (Except.ok a : Except Err α)) = Except.ok (f a) := rfl

@[simp] theorem mapE_err {α β : Type} (e : Err) (f : α → β) :
    (f <$> (Except.error e : Except Err α)) = (Except.error e : Except Err β) := rfl

@[simp] theorem pureE {α : Type} (a : α) : (pure a : Except Err α) = Except.ok a := rfl

@[simp] theorem exceptMap_ok {α β : Type} (a : α) (f : α → β) :
    (Except.ok a : Except Err α).map f = Except.ok (f a) := rfl

@[simp] theorem exceptMap_err {α β : Type} (e : Err) (f : α → β) :
    (Except.error e : Except Err α).map f = (Except.error e : Except Err β) := rfl

/-- Whether a value is a `ResourceLink` placeholder. -/
def isLinkB : PyVal → Bool
  | .vlink _ _ => true
  | _ => false

/-- Length of the leading run of placeholders in a list. -/
def leadLinks : List PyVal → Nat
  | .vlink _ _ :: rest => leadLinks rest + 1
  | _ => 0

theorem resolveDict_nil {m : Mapped} : resolveDict m [] = .ok [] := rfl

theorem resolveDict_cons_inv {m : Mapped} {k v : PyVal} {d : PDict} {out : PDict}
    (h : resolveDict m ((k, v) :: d) = .ok out) :
    ∃ v' d', slotVal m v = .ok v' ∧ resolveDict m d = .ok d' ∧ out = (k, v') :: d' := by
  simp only [resolveDict, List.mapM_cons] at h
  rcases hv : slotVal m v with e | v' <;> rw [hv] at h
  · rw [bindE_err] at h
    exact Except.noConfusion h
  · rw [bindE_ok] at h
    rcases hd : List.mapM (fun kv => do
        let v' ← slotVal m kv.2
        pure (kv.1, v')) d with e | d' <;> rw [hd] at h
    · simp only [bindE_err, mapE_err] at h
      exact Except.noConfusion h
    · refine ⟨v', d', rfl, hd, ?_⟩
      simp only [bindE_ok, mapE_ok, pureE, Except.ok.injEq] at h
      exact h.symm

theorem resolveDict_cons_ok {m : Mapped} {k v v' : PyVal} {d d' : PDict}
    (hv : slotVal m v = .ok v') (hd : resolveDict m d = .ok d') :
    resolveDict m ((k, v) :: d) = .ok ((k, v') :: d') := by
  simp only [resolveDict, List.mapM_cons] at *
  rw [hv, hd]
  simp

/-- The resolution of a field container is pointwise: each key keeps its
binding, with the value passed through the slot resolver. -/
theorem resolveDict_lookup {m : Mapped} :
    ∀ {d d' : PDict}, resolveDict m d = .ok d' → ∀ k : PyVal,
      (∀ v, pGet d k = some v → ∃ v', slotVal m v = .ok v' ∧ pGet d' k = some v') ∧
      (pGet d k = none → pGet d' k = none) := by
  intro d
  induction d with
  | nil =>
    intro d' h k
    have : d' = [] := by simpa [resolveDict_nil] using h.symm
    subst this
    exact ⟨fun v hv => by simp [pGet] at hv, fun _ => rfl⟩
  | cons kv rest ih =>
    intro d' h k
    obtain ⟨k0, v0⟩ := kv
    obtain ⟨v0', rest', hv0, hrest, rfl⟩ := resolveDict_cons_inv h
    by_cases hb : pyBeq k0 k
    · constructor
      · intro v hv
        rw [show pGet ((k0, v0) :: rest) k = some v0 from by simp [pGet, hb]] at hv
        injection hv with hv
        subst hv
        exact ⟨v0', hv0, by simp [pGet, hb]⟩
      · intro hnone
        rw [show pGet ((k0, v0) :: rest) k = some v0 from by simp [pGet, hb]] at hnone
        cases hnone
    · have hg : pGet ((k0, v0) :: rest) k = pGet rest k := by simp [pGet, hb]
      have hg' : pGet ((k0, v0') :: rest') k = pGet rest' k := by simp [pGet, hb]
      rw [hg, hg']
      exact ih hrest k

theorem resolveSeq_nil {m : Mapped} : resolveSeq m [] = .ok [] := rfl

theorem resolveSeq_cons_nonlink {m : Mapped} {e : PyVal} {rest : List PyVal}
    (hnl : isLinkB e = false) : resolveSeq m (e :: rest) = .ok (e :: rest) := by
  cases e <;> first | rfl | simp [isLinkB] at hnl

theorem resolveSeq_cons_link_inv {m : Mapped} {lt rid : PyVal} {rest out : List PyVal}
    (h : resolveSeq m (.vlink lt rid :: rest) = .ok out) :
    ∃ b rest', mappedGet m lt = .ok b ∧ resolveSeq m rest = .ok rest' ∧
      out = (match pGet b rid with
        | some a => PyVal.vref a
        | none => PyVal.vlink lt rid) :: rest' := by
  simp only [resolveSeq, lookupLink] at h
  rcases hb : mappedGet m lt with e | b <;> rw [hb] at h
  · simp only [bindE_err] at h
    exact Except.noConfusion h
  · simp only [bindE_ok, pureE] at h
    rcases hr : resolveSeq m rest with e | rest' <;> rw [hr] at h
    · simp only [bindE_err] at h
      exact Except.noConfusion h
    · refine ⟨b, rest', rfl, rfl, ?_⟩
      simp only [bindE_ok, pureE, Except.ok.injEq] at h
      exact h.symm

theorem resolveSeq_cons_link_ok {m : Mapped} {lt rid : PyVal} {b : List (PyVal × Nat)}
    {rest rest' : List PyVal} (hb : mappedGet m lt = .ok b)
    (hrest : resolveSeq m rest = .ok rest') :
    resolveSeq m (.vlink lt rid :: rest)
      = .ok ((match pGet b rid with
          | some a => PyVal.vref a
          | none => PyVal.vlink lt rid) :: rest') := by
  simp only [resolveSeq, lookupLink, hb, bindE_ok, pureE, hrest]

theorem leadLinks_nonlink {e : PyVal} {rest : List PyVal} (hnl : isLinkB e = false) :
    leadLinks (e :: rest) = 0 := by
  cases e <;> first | rfl | simp [isLinkB] at hnl

theorem resolveSeq_spec_nonlink {m : Mapped} {e : PyVal} {rest l' : List PyVal}
    (hnl : isLinkB e = false) (h : resolveSeq m (e :: rest) = .ok l') :
    l'.length = (e :: rest).length ∧
    (∀ i, leadLinks (e :: rest) ≤ i → l'[i]? = (e :: rest)[i]?) ∧
    (∀ i lt rid, i < leadLinks (e :: rest) → (e :: rest)[i]? = some (.vlink lt rid) →
      ∃ b, mappedGet m lt = .ok b ∧
        ((∃ a, pGet b rid = some a ∧ l'[i]? = some (.vref a)) ∨
          (pGet b rid = none ∧ l'[i]? = some (.vlink lt rid)))) := by
  rw [resolveSeq_cons_nonlink hnl] at h
  injection h with h
  subst h
  refine ⟨rfl, fun _ _ => rfl, fun i lt rid hi _ => ?_⟩
  rw [leadLinks_nonlink hnl] at hi
  omega

/-- Position-wise specification of sequence resolution: lengths are
preserved, every position at or beyond the leading placeholder run is
untouched, and every placeholder in the leading run is replaced by the
indexed resource when its target id is found and kept otherwise. -/
theorem resolveSeq_spec {m : Mapped} :
    ∀ {l l' : List PyVal}, resolveSeq m l = .ok l' →
      l'.length = l.length ∧
      (∀ i, leadLinks l ≤ i → l'[i]? = l[i]?) ∧
      (∀ i lt rid, i < leadLinks l → l[i]? = some (.vlink lt rid) →
        ∃ b, mappedGet m lt = .ok b ∧
          ((∃ a, pGet b rid = some a ∧ l'[i]? = some (.vref a)) ∨
            (pGet b rid = none ∧ l'[i]? = some (.vlink lt rid)))) := by
  intro l
  induction l with
  | nil =>
    intro l' h
    have : l' = [] := by simpa [resolveSeq_nil] using h.symm
    subst this
    refine ⟨rfl, fun _ _ => rfl, fun i lt rid hi _ => ?_⟩
    simp [leadLinks] at hi
  | cons e rest ih =>
    intro l' h
    cases e
    case vlink lt0 rid0 =>
      obtain ⟨b, rest', hb, hrest, rfl⟩ := resolveSeq_cons_link_inv h
      obtain ⟨ihlen, ihout, ihin⟩ := ih hrest
      have hlead : leadLinks (PyVal.vlink lt0 rid0 :: rest) = leadLinks rest + 1 := rfl
      refine ⟨by simp [ihlen], ?_, ?_⟩
      · intro i hi
        rw [hlead] at hi
        cases i with
        | zero => omega
        | succ i' =>
          simp only [List.getElem?_cons_succ]
          exact ihout i' (by omega)
      · intro i lt rid hi hv
        rw [hlead] at hi
        cases i with
        | zero =>
          simp only [List.getElem?_cons_zero, Option.some.injEq] at hv
          injection hv with h1 h2
          subst h1
          subst h2
          refine ⟨b, hb, ?_⟩
          cases hp : pGet b rid0 with
          | some a => exact Or.inl ⟨a, rfl, by simp [hp]⟩
          | none => exact Or.inr ⟨rfl, by simp [hp]⟩
        | succ i' =>
          simp only [List.getElem?_cons_succ] at hv ⊢
          exact ihin i' lt rid (by omega) hv
    all_goals exact resolveSeq_spec_nonlink rfl h

/-! Idempotence of the resolution pass: a second pass over already resolved
storage changes nothing.  This is what makes the in-place Python pass
insensitive to a resource appearing more than once in the Entry bucket and to
the two field containers sharing list objects. -/

theorem resolveSeq_idem_nonlink {m : Mapped} {e : PyVal} {rest l' : List PyVal}
    (h : resolveSeq m (e :: rest) = .ok l') (hnl : isLinkB e = false) :
    resolveSeq m l' = .ok l' := by
  rw [resolveSeq_cons_nonlink hnl] at h
  injection h with h
  subst h
  exact resolveSeq_cons_nonlink hnl

theorem resolveSeq_idem {m : Mapped} :
    ∀ {l l' : List PyVal}, resolveSeq m l = .ok l' → resolveSeq m l' = .ok l' := by
  intro l
  induction l with
  | nil =>
    intro l' h
    have : l' = [] := by simpa [resolveSeq_nil] using h.symm
    subst this
    rfl
  | cons e rest ih =>
    intro l' h
    cases e
    case vlink lt0 rid0 =>
      obtain ⟨b, rest', hb, hrest, rfl⟩ := resolveSeq_cons_link_inv h
      cases hp : pGet b rid0 with
      | some a =>
        exact resolveSeq_cons_nonlink rfl
      | none =>
        have h2 : resolveSeq m (PyVal.vlink lt0 rid0 :: rest')
            = .ok ((match pGet b rid0 with
                | some a => PyVal.vref a
                | none => PyVal.vlink lt0 rid0) :: rest') :=
          resolveSeq_cons_link_ok hb (ih hrest)
        rw [hp] at h2
        exact h2
    all_goals exact resolveSeq_idem_nonlink h rfl

theorem slotVal_idem {m : Mapped} {v v' : PyVal} (h : slotVal m v = .ok v') :
    slotVal m v' = .ok v' := by
  cases v
  case vlink lt rid =>
    simp only [slotVal, lookupLink] at h
    rcases hb : mappedGet m lt with e | b <;> rw [hb] at h
    · exact Except.noConfusion h
    · simp only [bindE_ok, pureE] at h
      cases hp : pGet b rid <;> rw [hp] at h <;> injection h with h <;> subst h
      · simp only [slotVal, lookupLink, hb, bindE_ok, pureE, hp]
      · rfl
  case vlist l =>
    simp only [slotVal] at h
    rcases hr : resolveSeq m l with e | l' <;> rw [hr] at h
    · exact Except.noConfusion h
    · simp only [bindE_ok, pureE] at h
      injection h with h
      subst h
      simp only [slotVal, resolveSeq_idem hr, bindE_ok, pureE]
  all_goals {
    simp only [slotVal] at h
    injection h with h
    subst h
    rfl
  }

theorem resolveDict_idem {m : Mapped} :
    ∀ {d d' : PDict}, resolveDict m d = .ok d' → resolveDict m d' = .ok d' := by
  intro d
  induction d with
  | nil =>
    intro d' h
    have : d' = [] := by simpa [resolveDict_nil] using h.symm
    subst this
    rfl
  | cons kv rest ih =>
    intro d' h
    obtain ⟨k0, v0⟩ := kv
    obtain ⟨v0', rest', hv0, hrest, rfl⟩ := resolveDict_cons_inv h
    exact resolveDict_cons_ok (slotVal_idem hv0) (ih hrest)

theorem cfOf_withResolved {r : Res} {cf fl : PDict} :
    resolveDict m (cfOf r) = .ok cf → cfOf (withResolved r cf fl) = cf := by
  intro h
  cases r with
  | entry e =>
    cases hc : e.cf_cda with
    | none =>
      simp only [cfOf, hc, Option.getD_none, resolveDict_nil, Except.ok.injEq] at h
      simp [cfOf, withResolved, hc, h]
    | some d0 => simp [cfOf, withResolved, hc]
  | asset a =>
    simp only [cfOf, resolveDict_nil, Except.ok.injEq] at h
    simp [cfOf, withResolved, h]
  | ctype c =>
    simp only [cfOf, resolveDict_nil, Except.ok.injEq] at h
    simp [cfOf, withResolved, h]
  | space s =>
    simp only [cfOf, resolveDict_nil, Except.ok.injEq] at h
    simp [cfOf, withResolved, h]
  | arrRes a =>
    simp only [cfOf, resolveDict_nil, Except.ok.injEq] at h
    simp [cfOf, withResolved, h]

theorem resolveRes_idem {m : Mapped} {r r' : Res} (h : resolveRes m r = .ok r') :
    resolveRes m r' = .ok r' := by
  simp only [resolveRes] at h
  rcases hcf : resolveDict m (cfOf r) with e | cf' <;> rw [hcf] at h
  · exact Except.noConfusion h
  · simp only [bindE_ok] at h
    rcases hfl : fieldsOf r with e | fl <;> rw [hfl] at h
    · exact Except.noConfusion h
    · simp only [bindE_ok] at h
      rcases hfl' : resolveDict m fl with e | fl' <;> rw [hfl'] at h
      · exact Except.noConfusion h
      · simp only [bindE_ok, pureE] at h
        injection h with h
        subst h
        have hcf2 : cfOf (withResolved r cf' fl') = cf' := cfOf_withResolved hcf
        have hfl2 : fieldsOf (withResolved r cf' fl') = .ok fl' := by
          cases r with
          | entry e => rfl
          | asset a => rfl
          | ctype c => rfl
          | space s => exact Except.noConfusion hfl
          | arrRes a => exact Except.noConfusion hfl
        simp only [resolveRes, hcf2, resolveDict_idem hcf, bindE_ok, hfl2,
          resolveDict_idem hfl', pureE, Except.ok.injEq]
        cases r with
        | entry e =>
          simp only [withResolved]
          cases hc : e.cf_cda <;> simp [hc]
        | asset a => rfl
        | ctype c => rfl
        | space s => exact Except.noConfusion hfl
        | arrRes a => exact Except.noConfusion hfl

theorem resolveStep_inv {m : Mapped} {h : Heap} {a : Nat} {h1 : Heap}
    (hs : resolveStep m h a = .ok h1) :
    ∃ r r', h[a]? = some r ∧ resolveRes m r = .ok r' ∧ h1 = h.set a r' := by
  rcases hr : h[a]? with _ | r <;> simp only [resolveStep, hr] at hs
  · exact Except.noConfusion hs
  · rcases hres : resolveRes m r with e | r' <;> rw [hres] at hs
    · rw [bindE_err] at hs
      exact Except.noConfusion hs
    · rw [bindE_ok, pureE] at hs
      injection hs with hs
      exact ⟨r, r', rfl, hres, hs.symm⟩

/-- Specification of the bucket fold: addresses not in the bucket keep their
resource, and every address in the bucket ends up holding the pure
per-resource resolution of what it held before the pass. -/
theorem resolveEntries_spec {m : Mapped} :
    ∀ {lst : List (PyVal × Nat)} {h h' : Heap},
      resolveEntries m h lst = .ok h' →
      (∀ a : Nat, (∀ p ∈ lst, p.2 ≠ a) → h'[a]? = h[a]?) ∧
      (∀ p ∈ lst, ∃ r r', h[p.2]? = some r ∧ resolveRes m r = .ok r' ∧
        h'[p.2]? = some r') := by
  intro lst
  induction lst with
  | nil =>
    intro h h' hres
    have : h' = h := by simpa [resolveEntries] using hres.symm
    subst this
    exact ⟨fun _ _ => rfl, fun p hp => absurd hp (List.not_mem_nil p)⟩
  | cons q rest ih =>
    intro h h' hres
    obtain ⟨id0, a0⟩ := q
    simp only [resolveEntries] at hres
    rcases hs : resolveStep m h a0 with e | h1 <;> rw [hs] at hres
    · exact Except.noConfusion hres
    · simp only [bindE_ok] at hres
      obtain ⟨r0, r0', hr0, hres0, rfl⟩ := resolveStep_inv hs
      have hlen : a0 < h.length := by
        rcases List.getElem?_eq_some_iff.mp hr0 with ⟨hlt, _⟩
        exact hlt
      obtain ⟨ihframe, ihspec⟩ := ih hres
      constructor
      · intro a ha
        have ha0 : a0 ≠ a := ha (id0, a0) (List.mem_cons_self _ _)
        have hrest : ∀ p ∈ rest, p.2 ≠ a :=
          fun p hp => ha p (List.mem_cons_of_mem _ hp)
        rw [ihframe a hrest, List.getElem?_set_ne ha0]
      · intro p hp
        rcases List.mem_cons.mp hp with rfl | hp2
        · by_cases hdup : ∀ q ∈ rest, q.2 ≠ a0
          · rw [ihframe a0 hdup, List.getElem?_set_self hlen]
            exact ⟨r0, r0', hr0, hres0, rfl⟩
          · push_neg at hdup
            obtain ⟨q, hq, hqa⟩ := hdup
            obtain ⟨r1, r1', hr1, hres1, hout⟩ := ihspec q hq
            rw [hqa] at hr1 hout
            rw [List.getElem?_set_self hlen] at hr1
            injection hr1 with hr1
            subst hr1
            have hre : r1' = r0' := by
              have h2 := resolveRes_idem hres0
              rw [h2] at hres1
              injection hres1 with hres1
              exact hres1.symm
            rw [hre] at hout
            exact ⟨r0, r0', hr0, hres0, hout⟩
        · obtain ⟨r1, r1', hr1, hres1, hout⟩ := ihspec p hp2
          by_cases hpa : p.2 = a0
          · rw [hpa] at hr1 hout ⊢
            rw [List.getElem?_set_self hlen] at hr1
            injection hr1 with hr1
            subst hr1
            have h2 := resolveRes_idem hres0
            rw [h2] at hres1
            injection hres1 with hres1
            subst hres1
            exact ⟨r0, r0', hr0, hres0, hout⟩
          · rw [List.getElem?_set_ne (fun he => hpa he.symm)] at hr1
            exact ⟨r1, r1', hr1, hres1, hout⟩

/-- Specification of the whole resolution pass in terms of the pure
per-resource transform. -/
theorem resolve_links_spec {h h' : Heap} {arr : ArrayObj}
    (hres : resolve_links h arr = .ok h') :
    ∃ eb, mappedGet arr.items_mapped (.vstr "Entry") = .ok eb ∧
      (∀ a : Nat, (∀ p ∈ eb, p.2 ≠ a) → h'[a]? = h[a]?) ∧
      (∀ p ∈ eb, ∃ r r', h[p.2]? = some r ∧
        resolveRes arr.items_mapped r = .ok r' ∧ h'[p.2]? = some r') := by
  simp only [resolve_links] at hres
  rcases hb : mappedGet arr.items_mapped (.vstr "Entry") with e | eb <;> rw [hb] at hres
  · exact Except.noConfusion hres
  · simp only [bindE_ok] at hres
    exact ⟨eb, rfl, resolveEntries_spec hres⟩

/-- Inversion of the per-resource pass on an Entry: both containers are
rewritten by dict resolution and everything else is kept. -/
theorem resolveRes_entry_inv {m : Mapped} {e : EntryObj} {r' : Res}
    (h : resolveRes m (.entry e) = .ok r') :
    ∃ cf' fl', resolveDict m (e.cf_cda.getD []) = .ok cf' ∧
      resolveDict m e.fields = .ok fl' ∧
      r' = .entry { e with cf_cda := e.cf_cda.map (fun _ => cf'), fields := fl' } := by
  simp only [resolveRes, cfOf, fieldsOf] at h
  rcases hcf : resolveDict m (e.cf_cda.getD []) with er | cf' <;> rw [hcf] at h
  · exact Except.noConfusion h
  · simp only [bindE_ok] at h
    rcases hfl : resolveDict m e.fields with er | fl' <;> rw [hfl] at h
    · exact Except.noConfusion h
    · simp only [bindE_ok, pureE] at h
      injection h with h
      exact ⟨cf', fl', rfl, rfl, by rw [← h]; rfl⟩

/-- Combined helper: after a successful resolution pass, the entry stored at
a bucket address is its pure per-entry resolution. -/
theorem resolve_entry_at {h h' : Heap} {arr : ArrayObj}
    (hres : resolve_links h arr = .ok h')
    {eb : List (PyVal × Nat)}
    (heb : mappedGet arr.items_mapped (.vstr "Entry") = .ok eb)
    {id : PyVal} {a : Nat} (hmem : (id, a) ∈ eb)
    {e : EntryObj} (he : h[a]? = some (.entry e)) :
    ∃ cf' fl', resolveDict arr.items_mapped (e.cf_cda.getD []) = .ok cf' ∧
      resolveDict arr.items_mapped e.fields = .ok fl' ∧
      h'[a]? = some (.entry { e with
        cf_cda := e.cf_cda.map (fun _ => cf')
        fields := fl' }) := by
  obtain ⟨eb', heb', _, hspec⟩ := resolve_links_spec hres
  rw [heb] at heb'
  injection heb' with heb'
  subst heb'
  obtain ⟨r, r', hr, hrr, hout⟩ := hspec (id, a) hmem
  rw [he] at hr
  injection hr with hr
  subst hr
  obtain ⟨cf', fl', hcf, hfl, rfl⟩ := resolveRes_entry_inv hrr
  exact ⟨cf', fl', hcf, hfl, hout⟩

/-! Totality of the resolution pass under the syntactic conditions the code
relies on: every placeholder that actually gets looked up names an existing
bucket, and every resource in the Entry bucket carries a fields attribute. -/

/-- Every placeholder in the leading run of a sequence names an existing
bucket. -/
def kindsOkSeq (m : Mapped) : List PyVal → Prop
  | .vlink lt _ :: rest => (∃ b, mappedGet m lt = .ok b) ∧ kindsOkSeq m rest
  | _ => True

/-- A slot value only looks up placeholders whose kind names an existing
bucket. -/
def kindsOk (m : Mapped) : PyVal → Prop
  | .vlink lt _ => ∃ b, mappedGet m lt = .ok b
  | .vlist l => kindsOkSeq m l
  | _ => True

/-- All slots of a container satisfy the bucket condition. -/
def kindsOkDict (m : Mapped) (d : PDict) : Prop := ∀ kv ∈ d, kindsOk m kv.2

theorem resolveSeq_total {m : Mapped} :
    ∀ {l : List PyVal}, kindsOkSeq m l → ∃ l', resolveSeq m l = .ok l' := by
  intro l
  induction l with
  | nil => exact fun _ => ⟨[], rfl⟩
  | cons e rest ih =>
    intro hk
    cases e
    case vlink lt rid =>
      obtain ⟨⟨b, hb⟩, hrest⟩ := hk
      obtain ⟨rest', hrest'⟩ := ih hrest
      exact ⟨_, resolveSeq_cons_link_ok hb hrest'⟩
    all_goals exact ⟨_, resolveSeq_cons_nonlink rfl⟩

theorem slotVal_total {m : Mapped} {v : PyVal} (hk : kindsOk m v) :
    ∃ v', slotVal m v = .ok v' := by
  cases v
  case vlink lt rid =>
    obtain ⟨b, hb⟩ := hk
    cases hp : pGet b rid with
    | some a => exact ⟨.vref a, by simp [slotVal, lookupLink, hb, hp]⟩
    | none => exact ⟨.vlink lt rid, by simp [slotVal, lookupLink, hb, hp]⟩
  case vlist l =>
    obtain ⟨l', hl'⟩ := resolveSeq_total hk
    exact ⟨.vlist l', by simp [slotVal, hl']⟩
  all_goals exact ⟨_, rfl⟩

theorem resolveDict_total {m : Mapped} :
    ∀ {d : PDict}, kindsOkDict m d → ∃ d', resolveDict m d = .ok d' := by
  intro d
  induction d with
  | nil => exact fun _ => ⟨[], rfl⟩
  | cons kv rest ih =>
    intro hk
    obtain ⟨k0, v0⟩ := kv
    obtain ⟨v0', hv0⟩ := slotVal_total (hk (k0, v0) (List.mem_cons_self _ _))
    obtain ⟨rest', hrest⟩ := ih (fun p hp => hk p (List.mem_cons_of_mem _ hp))
    exact ⟨_, resolveDict_cons_ok hv0 hrest⟩

theorem resolveRes_total {m : Mapped} {r : Res}
    (hf : ∃ fl, fieldsOf r = .ok fl)
    (hcf : kindsOkDict m (cfOf r))
    (hfl : ∀ fl, fieldsOf r = .ok fl → kindsOkDict m fl) :
    ∃ r', resolveRes m r = .ok r' := by
  obtain ⟨fl, hfleq⟩ := hf
  obtain ⟨cf', hcf'⟩ := resolveDict_total hcf
  obtain ⟨fl', hfl'⟩ := resolveDict_total (hfl fl hfleq)
  exact ⟨withResolved r cf' fl', by simp [resolveRes, hcf', hfleq, hfl']⟩

theorem resolveEntries_total {m : Mapped} :
    ∀ {lst : List (PyVal × Nat)} {h : Heap},
      (∀ p ∈ lst, ∃ r, h[p.2]? = some r ∧ ∃ r', resolveRes m r = .ok r') →
      ∃ h', resolveEntries m h lst = .ok h' := by
  intro lst
  induction lst with
  | nil => exact fun _ => ⟨_, rfl⟩
  | cons q rest ih =>
    intro h hcond
    obtain ⟨id0, a0⟩ := q
    obtain ⟨r0, hr0, r0', hres0⟩ := hcond (id0, a0) (List.mem_cons_self _ _)
    have hstep : resolveStep m h a0 = .ok (h.set a0 r0') := by
      simp [resolveStep, hr0, hres0]
    have hlen : a0 < h.length := (List.getElem?_eq_some_iff.mp hr0).1
    obtain ⟨h', hrest⟩ := ih (h := h.set a0 r0') (fun p hp => by
      by_cases hpa : p.2 = a0
      · rw [hpa, List.getElem?_set_self hlen]
        exact ⟨r0', rfl, r0', resolveRes_idem hres0⟩
      · rw [List.getElem?_set_ne (fun he => hpa he.symm)]
        obtain ⟨r1, hr1, hr1'⟩ := hcond p (List.mem_cons_of_mem _ hp)
        exact ⟨r1, hr1, hr1'⟩)
    exact ⟨h', by simp [resolveEntries, hstep, hrest]⟩

/-! Lemmas about entry construction, for the frame and storage claims. -/

mutual
/-- No `ResourceLink` placeholder occurs anywhere inside a value. -/
def linkFree : PyVal → Bool
  | .vlink _ _ => false
  | .vlist l => linkFreeList l
  | .vobj o => linkFreeObj o
  | _ => true

/-- No placeholder inside any list element. -/
def linkFreeList : List PyVal → Bool
  | [] => true
  | v :: rest => linkFree v && linkFreeList rest

/-- No placeholder inside any key or value of a dict body. -/
def linkFreeObj : List (PyVal × PyVal) → Bool
  | [] => true
  | (k, v) :: rest => linkFree k && linkFree v && linkFreeObj rest
end

mutual
theorem jsonToPy_linkFree : ∀ j : Json, linkFree (jsonToPy j) = true
  | .null => rfl
  | .jb _ => rfl
  | .jn _ => rfl
  | .js _ => rfl
  | .jarr l => by
      simp only [jsonToPy, linkFree]
      exact jsonListToPy_linkFree l
  | .jobj o => by
      simp only [jsonToPy, linkFree]
      exact jsonPairsToPy_linkFree o

theorem jsonListToPy_linkFree : ∀ l : List Json, linkFreeList (jsonListToPy l) = true
  | [] => rfl
  | j :: rest => by
      simp only [jsonListToPy, linkFreeList, Bool.and_eq_true]
      exact ⟨jsonToPy_linkFree j, jsonListToPy_linkFree rest⟩

theorem jsonPairsToPy_linkFree :
    ∀ o : List (String × Json), linkFreeObj (jsonPairsToPy o) = true
  | [] => rfl
  | (k, j) :: rest => by
      simp only [jsonPairsToPy, linkFreeObj, Bool.and_eq_true]
      exact ⟨⟨rfl, jsonToPy_linkFree j⟩, jsonPairsToPy_linkFree rest⟩
end

/-- Inversion of entry construction: the retained raw field dict is exactly
the Python-value image of the JSON fields object, captured with no link
substitution applied. -/
theorem bindE_ok_inv {α β : Type} {x : Except Err α} {f : α → Except Err β} {b : β}
    (h : (x >>= f) = .ok b) : ∃ a, x = .ok a ∧ f a = .ok b := by
  cases x with
  | error e => rw [bindE_err] at h; exact Except.noConfusion h
  | ok a => exact ⟨a, rfl, by rw [bindE_ok] at h; exact h⟩

theorem create_entry_raw {em : List (PyVal × EntryClass)} {j : Json} {e : EntryObj}
    (h : create_entry em j = .ok e) :
    ∃ o, jget j "fields" = some (.jobj o) ∧ e.raw_fields = jsonPairsToPy o := by
  simp only [create_entry] at h
  rcases h1 : jgetE j "sys" with er | sys <;> rw [h1] at h
  · exact Except.noConfusion h
  rw [bindE_ok] at h
  rcases h2 : jgetE sys "contentType" with er | ctn <;> rw [h2] at h
  · rw [bindE_err] at h; exact Except.noConfusion h
  rw [bindE_ok] at h
  rcases h3 : jgetE ctn "sys" with er | cts <;> rw [h3] at h
  · rw [bindE_err] at h; exact Except.noConfusion h
  rw [bindE_ok] at h
  rcases h4 : jgetE cts "id" with er | ctj <;> rw [h4] at h
  · rw [bindE_err] at h; exact Except.noConfusion h
  rw [bindE_ok] at h
  rcases h5 : jgetE j "fields" with er | fj <;> rw [h5] at h
  · exact Except.noConfusion h
  rw [bindE_ok] at h
  rcases fj with _ | _ | _ | _ | _ | o
  case jobj =>
    simp only [pureE, bindE_ok] at h
    obtain ⟨flds, h6, h⟩ := bindE_ok_inv h
    have hfio : jget j "fields" = some (Json.jobj o) := by
      simp only [jgetE] at h5
      rcases j with _ | _ | _ | _ | _ | oj
      · exact Except.noConfusion h5
      · exact Except.noConfusion h5
      · exact Except.noConfusion h5
      · exact Except.noConfusion h5
      · exact Except.noConfusion h5
      · rcases hg : jget (.jobj oj) "fields" with _ | v <;> rw [hg] at h5
        · exact Except.noConfusion h5
        · injection h5 with h5
          rw [h5]
    refine ⟨o, hfio, ?_⟩
    split at h
    · obtain ⟨cf, hcf, h⟩ := bindE_ok_inv h
      injection h with h
      subst h
      rfl
    · injection h with h
      subst h
      rfl
  all_goals exact Except.noConfusion h

/-- A concrete entry payload: one plain field and one link-shaped field. -/
def c10Json : Json :=
  .jobj [
    ("sys", .jobj [("id", .js "A"), ("type", .js "Entry"),
      ("contentType", .jobj [("sys", .jobj [("id", .js "cat")])])]),
    ("fields", .jobj [
      ("name", .js "Nyan"),
      ("friend", .jobj [("sys", .jobj [("type", .js "Link"),
        ("linkType", .js "Entry"), ("id", .js "B")])])])]

/-- The entry decoded from `c10Json` with no registered schema classes. -/
def c10Entry : EntryObj :=
  match create_entry [] c10Json with
  | .ok e => e
  | .error _ => ⟨.null, [], [], none⟩

/-- A bucket map with empty Asset and Entry buckets. -/
def c10Mapped : Mapped := [("Asset", []), ("Entry", [])]

/-- The result of the per-resource resolution pass on `c10Entry`. -/
def c10Res : Res :=
  match resolveRes c10Mapped (.entry c10Entry) with
  | .ok r => r
  | .error _ => .entry c10Entry

/-- C10: an Entry produced by decode carries in `raw_fields` exactly the
Python-value image of the original JSON fields object, captured before link
placeholder substitution; that dict never contains a placeholder, and the
resolution pass leaves `raw_fields` and `sys` unchanged, rewriting only the
`fields` dict and the typed attribute dict. -/
theorem C10_raw_fields_frame {em : List (PyVal × EntryClass)} {j : Json} {e : EntryObj}
    {m : Mapped} {r' : Res}
    (hdec : create_entry em j = .ok e)
    (hres : resolveRes m (.entry e) = .ok r') :
    (∃ o, jget j "fields" = some (.jobj o) ∧ e.raw_fields = jsonPairsToPy o) ∧
    linkFreeObj e.raw_fields = true ∧
    ∃ e2, r' = .entry e2 ∧ e2.raw_fields = e.raw_fields ∧ e2.sys = e.sys := by
  obtain ⟨o, ho, hraw⟩ := create_entry_raw hdec
  obtain ⟨cf2, fl2, _, _, hr⟩ := resolveRes_entry_inv hres
  refine ⟨⟨o, ho, hraw⟩, ?_, ?_⟩
  · rw [hraw]
    exact jsonPairsToPy_linkFree o
  · exact ⟨_, hr, rfl, rfl⟩

/-- Witness for C10 at a concrete payload and bucket map. -/
theorem C10_raw_fields_frame_witness :
    (∃ o, jget c10Json "fields" = some (.jobj o) ∧ c10Entry.raw_fields = jsonPairsToPy o) ∧
    linkFreeObj c10Entry.raw_fields = true ∧
    (∃ e2, c10Res = .entry e2 ∧ e2.raw_fields = c10Entry.raw_fields ∧
      e2.sys = c10Entry.sys) :=
  @C10_raw_fields_frame [] c10Json c10Entry c10Mapped c10Res (by rfl) (by rfl)

/-! Lemmas about the array assembly pipeline. -/

theorem pGet_pSet_self {α : Type} (d : List (PyVal × α)) (k : PyVal) (v : α) :
    pGet (pSet d k v) k = some v := by
  induction d with
  | nil => simp [pGet, pSet, pyBeq_refl]
  | cons kv rest ih =>
    obtain ⟨q, w⟩ := kv
    by_cases hq : pyBeq q k = true
    · simp [pGet, pSet, hq]
    · simp [pGet, pSet, hq, ih]

theorem mappedInsert_keys :
    ∀ {m : Mapped} {key : String} {id : PyVal} {a : Nat} {m2 : Mapped},
      mappedInsert m key id a = .ok m2 →
      m2.map (fun kv => kv.1) = m.map (fun kv => kv.1) := by
  intro m
  induction m with
  | nil =>
    intro key id a m2 h
    exact Except.noConfusion h
  | cons kb rest ih =>
    intro key id a m2 h
    obtain ⟨k, b⟩ := kb
    simp only [mappedInsert] at h
    split at h
    · injection h with h
      rw [← h]
      simp
    · obtain ⟨rest2, hr, h⟩ := bindE_ok_inv h
      simp only [pureE] at h
      injection h with h
      rw [← h]
      simp only [List.map_cons, ih hr]

theorem mappedInsert_lookup :
    ∀ {m : Mapped} {key : String} {id : PyVal} {a : Nat} {m2 : Mapped},
      mappedInsert m key id a = .ok m2 →
      lookupLink m2 (.vstr key) id = .ok (some a) := by
  intro m
  induction m with
  | nil =>
    intro key id a m2 h
    exact Except.noConfusion h
  | cons kb rest ih =>
    intro key id a m2 h
    obtain ⟨k, b⟩ := kb
    simp only [mappedInsert] at h
    split at h
    next hk =>
      injection h with h
      subst hk
      rw [← h]
      simp only [lookupLink, mappedGet, pyBeq_refl, if_pos, bindE_ok, pureE]
      rw [pGet_pSet_self]
    next hk =>
      obtain ⟨rest2, hr, h⟩ := bindE_ok_inv h
      simp only [pureE] at h
      injection h with h
      rw [← h]
      have hne : pyBeq (PyVal.vstr k) (PyVal.vstr key) = false := by
        rcases hb : pyBeq (PyVal.vstr k) (PyVal.vstr key) with _ | _
        · rfl
        · have := pyBeq_iff_eq.mp hb
          injection this with this
          exact absurd this hk
      have ihh := ih hr
      simp only [lookupLink, mappedGet, hne, if_neg, Bool.false_eq_true,
        not_false_iff] at ihh ⊢
      exact ihh

theorem process_array_items_len {em : List (PyVal × EntryClass)} :
    ∀ (fuel : Nat) (h : Heap) (st : List (Option Nat) × Mapped) (jl : List Json)
      (r : Heap × (List (Option Nat) × Mapped)),
      process_array_items em fuel h st jl = .ok r →
      r.2.1.length = st.1.length + jl.length := by
  intro fuel
  induction fuel with
  | zero =>
    intro h st jl r hp
    exact Except.noConfusion hp
  | succ fz ih =>
    intro h st jl r hp
    match jl with
    | [] =>
      simp only [process_array_items, pureE] at hp
      injection hp with hp
      rw [← hp]
      simp
    | itemJ :: rest =>
      simp only [process_array_items] at hp
      obtain ⟨rj, hrj, hp⟩ := bindE_ok_inv hp
      split at hp
      · have := ih _ _ _ _ hp
        simp only [List.length_append, List.length_cons, List.length_nil] at this ⊢
        omega
      · split at hp
        · exact Except.noConfusion hp
        · split at hp
          · have := ih _ _ _ _ hp
            simp only [List.length_append, List.length_cons, List.length_nil] at this ⊢
            omega
          · obtain ⟨idv, hid, hp⟩ := bindE_ok_inv hp
            obtain ⟨m2, hm2, hp⟩ := bindE_ok_inv hp
            have := ih _ _ _ _ hp
            simp only [List.length_append, List.length_cons, List.length_nil] at this ⊢
            omega

theorem process_array_items_keys {em : List (PyVal × EntryClass)} :
    ∀ (fuel : Nat) (h : Heap) (st : List (Option Nat) × Mapped) (jl : List Json)
      (r : Heap × (List (Option Nat) × Mapped)),
      process_array_items em fuel h st jl = .ok r →
      r.2.2.map (fun kv => kv.1) = st.2.map (fun kv => kv.1) := by
  intro fuel
  induction fuel with
  | zero =>
    intro h st jl r hp
    exact Except.noConfusion hp
  | succ fz ih =>
    intro h st jl r hp
    match jl with
    | [] =>
      simp only [process_array_items, pureE] at hp
      injection hp with hp
      rw [← hp]
    | itemJ :: rest =>
      simp only [process_array_items] at hp
      obtain ⟨rj, hrj, hp⟩ := bindE_ok_inv hp
      split at hp
      · have h9 := ih _ _ _ _ hp
        exact h9
      · split at hp
        · exact Except.noConfusion hp
        · split at hp
          · have h9 := ih _ _ _ _ hp
            exact h9
          · obtain ⟨idv, hid, hp⟩ := bindE_ok_inv hp
            obtain ⟨m2, hm2, hp⟩ := bindE_ok_inv hp
            have h9 := ih _ _ _ _ hp
            exact h9.trans (mappedInsert_keys hm2)

theorem process_includes_list_keys {em : List (PyVal × EntryClass)} :
    ∀ (fuel : Nat) (h : Heap) (m : Mapped) (key : String) (jl : List Json)
      (r : Heap × Mapped),
      process_includes_list em fuel h m key jl = .ok r →
      r.2.map (fun kv => kv.1) = m.map (fun kv => kv.1) := by
  intro fuel
  induction fuel with
  | zero =>
    intro h m key jl r hp
    exact Except.noConfusion hp
  | succ fz ih =>
    intro h m key jl r hp
    match jl with
    | [] =>
      simp only [process_includes_list, pureE] at hp
      injection hp with hp
      rw [← hp]
    | j :: rest =>
      simp only [process_includes_list] at hp
      obtain ⟨rj, hrj, hp⟩ := bindE_ok_inv hp
      split at hp
      · exact Except.noConfusion hp
      · split at hp
        · exact Except.noConfusion hp
        · obtain ⟨idv, hid, hp⟩ := bindE_ok_inv hp
          obtain ⟨m2, hm2, hp⟩ := bindE_ok_inv hp
          have h9 := ih _ _ _ _ _ hp
          exact h9.trans (mappedInsert_keys hm2)

theorem process_array_includes_keys {em : List (PyVal × EntryClass)} :
    ∀ (fuel : Nat) (h : Heap) (m : Mapped) (keys : List String) (incl : Json)
      (r : Heap × Mapped),
      process_array_includes em fuel h m keys incl = .ok r →
      r.2.map (fun kv => kv.1) = m.map (fun kv => kv.1) := by
  intro fuel
  induction fuel with
  | zero =>
    intro h m keys incl r hp
    exact Except.noConfusion hp
  | succ fz ih =>
    intro h m keys incl r hp
    match keys with
    | [] =>
      simp only [process_array_includes, pureE] at hp
      injection hp with hp
      rw [← hp]
    | key :: restKeys =>
      simp only [process_array_includes] at hp
      obtain ⟨mem, hmem, hp⟩ := bindE_ok_inv hp
      split at hp
      · obtain ⟨lst, hlst, hp⟩ := bindE_ok_inv hp
        obtain ⟨items, hitems, hp⟩ := bindE_ok_inv hp
        obtain ⟨r1, hr1, hp⟩ := bindE_ok_inv hp
        have h9 := ih _ _ _ _ _ hp
        exact h9.trans (process_includes_list_keys _ _ _ _ _ _ hr1)
      · have h9 := ih _ _ _ _ _ hp
        exact h9

/-- The effective includes object: `json.get("includes") or \x7b\x7d`. -/
def includesOf (j : Json) : Json :=
  match jget j "includes" with
  | none => Json.jobj []
  | some jv => if jsonTruthy jv then jv else Json.jobj []

/-- C8: decoding an Array node first decodes every element of `items` in
order into the `items` slot list (one slot per element), starting from the
two pre-seeded buckets Asset and Entry, then merges the `includes` buckets
into the same map; the bucket keys are exactly Asset and Entry throughout,
`items` has one slot per response item, and each bucket insertion overwrites
any earlier binding of the same id. -/
theorem C8_array_assembly {em : List (PyVal × EntryClass)} {fuel : Nat}
    {h h2 : Heap} {j : Json} {addr : Nat}
    (hc : create_array em fuel h j = .ok (h2, addr)) :
    ∃ fz sys total skp lim ij itemsJ r1 r2,
      fuel = fz + 1 ∧
      jgetE j "sys" = .ok sys ∧
      jgetE j "total" = .ok total ∧
      jgetE j "skip" = .ok skp ∧
      jgetE j "limit" = .ok lim ∧
      jgetE j "items" = .ok ij ∧
      pyIter ij = .ok itemsJ ∧
      process_array_items em fz h ([], [("Asset", []), ("Entry", [])]) itemsJ = .ok r1 ∧
      process_array_includes em fz r1.1 r1.2.2 (r1.2.2.map (fun kv => kv.1))
        (includesOf j) = .ok r2 ∧
      addr = r2.1.length ∧
      h2 = r2.1 ++
        [.arrRes ⟨sys, jsonToPy total, jsonToPy skp, jsonToPy lim, r1.2.1, r2.2⟩] ∧
      h2[addr]? = some
        (.arrRes ⟨sys, jsonToPy total, jsonToPy skp, jsonToPy lim, r1.2.1, r2.2⟩) ∧
      r1.2.1.length = itemsJ.length ∧
      r1.2.2.map (fun kv => kv.1) = ["Asset", "Entry"] ∧
      r2.2.map (fun kv => kv.1) = ["Asset", "Entry"] ∧
      (∀ (m : Mapped) (key : String) (id : PyVal) (a : Nat) (m2 : Mapped),
        mappedInsert m key id a = .ok m2 →
        lookupLink m2 (.vstr key) id = .ok (some a)) := by
  match fuel with
  | 0 => exact Except.noConfusion hc
  | fz + 1 =>
    simp only [create_array] at hc
    obtain ⟨sys, h1, hc⟩ := bindE_ok_inv hc
    obtain ⟨total, hT, hc⟩ := bindE_ok_inv hc
    obtain ⟨skp, hS, hc⟩ := bindE_ok_inv hc
    obtain ⟨lim, hL, hc⟩ := bindE_ok_inv hc
    obtain ⟨ij, hI, hc⟩ := bindE_ok_inv hc
    obtain ⟨itemsJ, hJ, hc⟩ := bindE_ok_inv hc
    obtain ⟨r1, h7, hc⟩ := bindE_ok_inv hc
    obtain ⟨r2, h8, hc⟩ := bindE_ok_inv hc
    simp only [pureE] at hc
    injection hc with hc
    injection hc with hcH hcA
    have hk1 : r1.2.2.map (fun kv => kv.1) = ["Asset", "Entry"] :=
      process_array_items_keys _ _ _ _ _ h7
    have hk2 := process_array_includes_keys _ _ _ _ _ _ h8
    have hlen : r1.2.1.length = itemsJ.length := by
      have := process_array_items_len _ _ _ _ _ h7
      simpa using this
    refine ⟨fz, sys, total, skp, lim, ij, itemsJ, r1, r2, rfl, h1, hT, hS, hL, hI, hJ,
      h7, h8, hcA.symm, hcH.symm, ?_, hlen, hk1, hk2.trans hk1, ?_⟩
    · rw [← hcH, ← hcA]
      simp
    · intro m key id a m2 hins
      exact mappedInsert_lookup hins

/-- A concrete Entry item payload. -/
def c8EntryA : Json :=
  .jobj [
    ("sys", .jobj [("id", .js "eA"), ("type", .js "Entry"),
      ("contentType", .jobj [("sys", .jobj [("id", .js "cat")])])]),
    ("fields", .jobj [("name", .js "A")])]

/-- A second concrete Entry item payload. -/
def c8EntryB : Json :=
  .jobj [
    ("sys", .jobj [("id", .js "eB"), ("type", .js "Entry"),
      ("contentType", .jobj [("sys", .jobj [("id", .js "cat")])])]),
    ("fields", .jobj [("name", .js "B")])]

/-- A concrete Asset payload carried by includes. -/
def c8Asset : Json :=
  .jobj [
    ("sys", .jobj [("id", .js "a1"), ("type", .js "Asset")]),
    ("fields", .jobj [("file",
      .jobj [("url", .js "u"), ("contentType", .js "image/png")])])]

/-- An Array response with two Entry items and one included Asset. -/
def c8Json : Json :=
  .jobj [
    ("sys", .jobj [("type", .js "Array")]),
    ("total", .jn 2), ("skip", .jn 0), ("limit", .jn 100),
    ("items", .jarr [c8EntryA, c8EntryB]),
    ("includes", .jobj [("Asset", .jarr [c8Asset])])]

/-- The heap and array address decoded from `c8Json`. -/
def c8Out : Heap × Nat :=
  match create_array [] 9 [] c8Json with
  | .ok r => r
  | .error _ => ([], 0)

/-- Witness for C8 at the two-Entries-one-included-Asset response. -/
theorem C8_array_assembly_witness :
    ∃ fz sys total skp lim ij itemsJ r1 r2,
      (9 : Nat) = fz + 1 ∧
      jgetE c8Json "sys" = .ok sys ∧
      jgetE c8Json "total" = .ok total ∧
      jgetE c8Json "skip" = .ok skp ∧
      jgetE c8Json "limit" = .ok lim ∧
      jgetE c8Json "items" = .ok ij ∧
      pyIter ij = .ok itemsJ ∧
      process_array_items [] fz [] ([], [("Asset", []), ("Entry", [])]) itemsJ = .ok r1 ∧
      process_array_includes [] fz r1.1 r1.2.2 (r1.2.2.map (fun kv => kv.1))
        (includesOf c8Json) = .ok r2 ∧
      c8Out.2 = r2.1.length ∧
      c8Out.1 = r2.1 ++
        [.arrRes ⟨sys, jsonToPy total, jsonToPy skp, jsonToPy lim, r1.2.1, r2.2⟩] ∧
      c8Out.1[c8Out.2]? = some
        (.arrRes ⟨sys, jsonToPy total, jsonToPy skp, jsonToPy lim, r1.2.1, r2.2⟩) ∧
      r1.2.1.length = itemsJ.length ∧
      r1.2.2.map (fun kv => kv.1) = ["Asset", "Entry"] ∧
      r2.2.map (fun kv => kv.1) = ["Asset", "Entry"] ∧
      (∀ (m : Mapped) (key : String) (id : PyVal) (a : Nat) (m2 : Mapped),
        mappedInsert m key id a = .ok m2 →
        lookupLink m2 (.vstr key) id = .ok (some a)) :=
  @C8_array_assembly [] 9 [] c8Out.1 c8Json c8Out.2 (by rfl)

/-! Lemmas relating the three field views of a schema-bound entry. -/

theorem pGet_pSet_ne {α : Type} (d : List (PyVal × α)) (k k2 : PyVal) (v : α)
    (h : pyBeq k2 k = false) : pGet (pSet d k2 v) k = pGet d k := by
  induction d with
  | nil => simp [pGet, pSet, h]
  | cons qw rest ih =>
    obtain ⟨q, w⟩ := qw
    by_cases hq : pyBeq q k2 = true
    · have : q = k2 := pyBeq_iff_eq.mp hq
      subst this
      simp [pGet, pSet, hq, h]
    · simp only [pSet, hq, if_false, Bool.not_eq_true] at *
      by_cases hqk : pyBeq q k = true
      · simp [pGet, hqk]
      · simp only [Bool.not_eq_true] at hqk
        simp [pGet, hqk, ih]

/-- One step of the typed-storage fold of `create_entry`, written out. -/
def cfStep (flds : PDict) (cf : Option PDict) (av : String × FieldSpec) :
    Except Err (Option PDict) :=
  match pGet flds (.vstr av.2.field_id) with
  | none => pure cf
  | some .vnull => pure cf
  | some fv => do
    let cv ← convert_value fv av.2
    pure (some (pSet (cf.getD []) (.vstr av.2.field_id) cv))

theorem cfFold_frame :
    ∀ (l : List (String × FieldSpec)) (flds : PDict) (init out : Option PDict)
      (fid : String),
      l.foldlM (cfStep flds) init = .ok out →
      (∀ av ∈ l, av.2.field_id ≠ fid) →
      pGet (out.getD []) (.vstr fid) = pGet (init.getD []) (.vstr fid) := by
  intro l
  induction l with
  | nil =>
    intro flds init out fid hf hne
    simp only [List.foldlM_nil, pureE] at hf
    injection hf with hf
    rw [hf]
  | cons a rest ih =>
    intro flds init out fid hf hne
    simp only [List.foldlM_cons] at hf
    obtain ⟨acc, hstep, hrest⟩ := bindE_ok_inv hf
    have htail : pGet (out.getD []) (.vstr fid) = pGet (acc.getD []) (.vstr fid) :=
      ih flds acc out fid hrest (fun av hav => hne av (List.mem_cons_of_mem a hav))
    rw [htail]
    simp only [cfStep] at hstep
    split at hstep
    · simp only [pureE] at hstep
      injection hstep with hstep
      rw [hstep]
    · simp only [pureE] at hstep
      injection hstep with hstep
      rw [hstep]
    · obtain ⟨cv, hcv, hstep⟩ := bindE_ok_inv hstep
      simp only [pureE] at hstep
      injection hstep with hstep
      rw [← hstep]
      simp only [Option.getD_some]
      have hba : pyBeq (PyVal.vstr a.2.field_id) (PyVal.vstr fid) = false := by
        rcases hb : pyBeq (PyVal.vstr a.2.field_id) (PyVal.vstr fid) with _ | _
        · rfl
        · have := pyBeq_iff_eq.mp hb
          injection this with this
          exact absurd this (hne a (List.mem_cons_self a rest))
      exact pGet_pSet_ne _ _ _ _ hba

theorem cfFold_spec :
    ∀ (l : List (String × FieldSpec)) (flds : PDict) (init out : Option PDict),
      l.foldlM (cfStep flds) init = .ok out →
      (l.map (fun av => av.2.field_id)).Nodup →
      ∀ av ∈ l, ∀ fv, pGet flds (.vstr av.2.field_id) = some fv → fv ≠ .vnull →
        ∃ cv, convert_value fv av.2 = .ok cv ∧
          pGet (out.getD []) (.vstr av.2.field_id) = some cv := by
  intro l
  induction l with
  | nil =>
    intro flds init out hf hnd av hav
    exact absurd hav (List.not_mem_nil av)
  | cons a rest ih =>
    intro flds init out hf hnd av hav fv hfv hne
    simp only [List.foldlM_cons] at hf
    obtain ⟨acc, hstep, hrest⟩ := bindE_ok_inv hf
    simp only [List.map_cons, List.nodup_cons] at hnd
    rcases List.mem_cons.mp hav with rfl | hmem
    · simp only [cfStep] at hstep
      split at hstep
      next heq => rw [heq] at hfv; exact Option.noConfusion hfv
      next heq =>
        rw [heq] at hfv
        injection hfv with hfv
        exact absurd hfv.symm hne
      next fw heq =>
        rw [heq] at hfv
        injection hfv with hfv
        subst hfv
        obtain ⟨cv, hcv, hstep⟩ := bindE_ok_inv hstep
        simp only [pureE] at hstep
        injection hstep with hstep
        refine ⟨cv, hcv, ?_⟩
        have hframe := cfFold_frame rest flds acc out av.2.field_id hrest ?hne2
        case hne2 =>
          intro bv hbv hb
          exact hnd.1 (hb ▸ List.mem_map_of_mem (fun x => x.2.field_id) hbv)
        rw [hframe, ← hstep]
        simp only [Option.getD_some]
        exact pGet_pSet_self _ _ _
    · exact ih flds acc out hrest hnd.2 av hmem fv hfv hne

/-- The per-binding substitution step of `create_entry`, written out. -/
def substPair (kv : PyVal × PyVal) : Except Err (PyVal × PyVal) := do
  pure (kv.1, ← substValue kv.2)

/-- Full inversion of entry construction: every container of the produced
entry in terms of the input JSON, including the typed-storage fold. -/
theorem create_entry_typed {em : List (PyVal × EntryClass)} {j : Json} {e : EntryObj}
    (h : create_entry em j = .ok e) :
    ∃ sys ctn cts ctj o flds,
      jgetE j "sys" = .ok sys ∧
      jgetE sys "contentType" = .ok ctn ∧
      jgetE ctn "sys" = .ok cts ∧
      jgetE cts "id" = .ok ctj ∧
      jgetE j "fields" = .ok (.jobj o) ∧
      (jsonPairsToPy o).mapM substPair = .ok flds ∧
      e.sys = sys ∧ e.raw_fields = jsonPairsToPy o ∧ e.fields = flds ∧
      ((∃ clazz cf, pGet em (jsonToPy ctj) = some clazz ∧
          clazz.entry_fields.foldlM (cfStep flds) none = .ok cf ∧ e.cf_cda = cf) ∨
        (pGet em (jsonToPy ctj) = none ∧ e.cf_cda = none)) := by
  simp only [create_entry] at h
  rcases h1 : jgetE j "sys" with er | sys <;> rw [h1] at h
  · exact Except.noConfusion h
  rw [bindE_ok] at h
  rcases h2 : jgetE sys "contentType" with er | ctn <;> rw [h2] at h
  · rw [bindE_err] at h; exact Except.noConfusion h
  rw [bindE_ok] at h
  rcases h3 : jgetE ctn "sys" with er | cts <;> rw [h3] at h
  · rw [bindE_err] at h; exact Except.noConfusion h
  rw [bindE_ok] at h
  rcases h4 : jgetE cts "id" with er | ctj <;> rw [h4] at h
  · rw [bindE_err] at h; exact Except.noConfusion h
  rw [bindE_ok] at h
  rcases h5 : jgetE j "fields" with er | fj <;> rw [h5] at h
  · exact Except.noConfusion h
  rw [bindE_ok] at h
  rcases fj with _ | _ | _ | _ | _ | o
  case jobj =>
    simp only [pureE, bindE_ok] at h
    obtain ⟨flds, h6, h⟩ := bindE_ok_inv h
    refine ⟨sys, ctn, cts, ctj, o, flds, rfl, h2, h3, h4, rfl, h6, ?_⟩
    split at h
    next clazz heq =>
      obtain ⟨cf, hcf, h⟩ := bindE_ok_inv h
      injection h with h
      subst h
      exact ⟨rfl, rfl, rfl, Or.inl ⟨clazz, cf, heq, hcf, rfl⟩⟩
    next heq =>
      injection h with h
      subst h
      exact ⟨rfl, rfl, rfl, Or.inr ⟨heq, rfl⟩⟩
  all_goals exact Except.noConfusion h

/-- C4, amended: the typed view is the coercion image of the shared
substituted field dict (slot by slot, for declared fields with distinct ids),
and the resolution pass preserves slot equality between the two views; the
views are not literally shared, since a coercing conversion stores a new
value in the typed view only. -/
theorem C4_raw_typed_sync {em : List (PyVal × EntryClass)} {j : Json} {e : EntryObj}
    (hdec : create_entry em j = .ok e) :
    (∀ (m : Mapped) (r2 : Res), resolveRes m (.entry e) = .ok r2 →
      ∀ k : PyVal, pGet e.fields k = pGet (e.cf_cda.getD []) k →
        ∃ e2, r2 = .entry e2 ∧ e2.raw_fields = e.raw_fields ∧
          pGet e2.fields k = pGet (e2.cf_cda.getD []) k) ∧
    (∀ sys ctn cts ctj clazz,
      jgetE j "sys" = .ok sys → jgetE sys "contentType" = .ok ctn →
      jgetE ctn "sys" = .ok cts → jgetE cts "id" = .ok ctj →
      pGet em (jsonToPy ctj) = some clazz →
      (clazz.entry_fields.map (fun av => av.2.field_id)).Nodup →
      ∀ av ∈ clazz.entry_fields, ∀ fv,
        pGet e.fields (.vstr av.2.field_id) = some fv → fv ≠ .vnull →
        ∃ cv, convert_value fv av.2 = .ok cv ∧
          pGet (e.cf_cda.getD []) (.vstr av.2.field_id) = some cv) := by
  obtain ⟨sys, ctn, cts, ctj, o, flds, hs, hcn, hcs, hci, hf, hm,
    hesys, heraw, hefl, hcda⟩ := create_entry_typed hdec
  constructor
  · intro m r2 hres k hk
    obtain ⟨cf2, fl2, hcf, hfl, hr⟩ := resolveRes_entry_inv hres
    refine ⟨_, hr, rfl, ?_⟩
    cases hc : e.cf_cda with
    | none =>
      rw [hc] at hcf hk
      simp only [Option.getD_none] at hcf hk
      rw [resolveDict_nil] at hcf
      injection hcf with hcf
      simp only [pGet] at hk
      have hn := (resolveDict_lookup hfl k).2 hk
      simp only [hn, ← hcf, Option.map_none]
      rfl
    | some cfd =>
      rw [hc] at hcf hk
      simp only [Option.getD_some] at hcf hk
      cases hv : pGet e.fields k with
      | none =>
        rw [hv] at hk
        have hg1 := (resolveDict_lookup hfl k).2 hv
        have hg2 := (resolveDict_lookup hcf k).2 hk.symm
        show pGet fl2 k = pGet cf2 k
        rw [hg1, hg2]
      | some v =>
        rw [hv] at hk
        obtain ⟨v1, hv1, hw1⟩ := (resolveDict_lookup hfl k).1 v hv
        obtain ⟨v2, hv2, hw2⟩ := (resolveDict_lookup hcf k).1 v hk.symm
        show pGet fl2 k = pGet cf2 k
        rw [hw1, hw2]
        rw [hv1] at hv2
        injection hv2 with hv2
        rw [hv2]
  · intro sys0 ctn0 cts0 ctj0 clazz hs0 hcn0 hcs0 hci0 hct hnd av hav fv hfv hvn
    rw [hs] at hs0
    injection hs0 with hq; subst hq
    rw [hcn] at hcn0
    injection hcn0 with hq; subst hq
    rw [hcs] at hcs0
    injection hcs0 with hq; subst hq
    rw [hci] at hci0
    injection hci0 with hq; subst hq
    rcases hcda with ⟨clazz2, cf, hga, hfold, hecf⟩ | ⟨hga, hecf⟩
    · rw [hga] at hct
      injection hct with hct
      subst hct
      have hsp := cfFold_spec clazz2.entry_fields flds none cf hfold hnd av hav fv
        (by rw [← hefl]; exact hfv) hvn
      rw [hecf]
      exact hsp
    · rw [hga] at hct
      exact Option.noConfusion hct

/-- A schema class declaring one Number field. -/
def c4Class : EntryClass :=
  ⟨"Cat", some (.vstr "cat"), [("lives", ⟨.number, "lives"⟩)]⟩

/-- The registration map holding `c4Class` under content type id "cat". -/
def c4Em : List (PyVal × EntryClass) := [(.vstr "cat", c4Class)]

/-- An entry payload whose Number-typed field arrives as the string "9". -/
def c4Json : Json :=
  .jobj [
    ("sys", .jobj [("id", .js "c1"), ("type", .js "Entry"),
      ("contentType", .jobj [("sys", .jobj [("id", .js "cat")])])]),
    ("fields", .jobj [("lives", .js "9")])]

/-- The entry decoded from `c4Json` against `c4Em`. -/
def c4Entry : EntryObj :=
  match create_entry c4Em c4Json with
  | .ok e => e
  | .error _ => ⟨.null, [], [], none⟩

/-- Counterexample to C4 as stated: after decoding, the raw view and the
substituted field view hold the string "9" while the typed view holds the
integer 9, so the typed and raw views of the same logical value differ; the
coercion performed on the typed view is not reflected in the other views. -/
theorem C4_sync_counterexample :
    create_entry c4Em c4Json = .ok c4Entry ∧
    pGet c4Entry.raw_fields (.vstr "lives") = some (.vstr "9") ∧
    pGet c4Entry.fields (.vstr "lives") = some (.vstr "9") ∧
    pGet (c4Entry.cf_cda.getD []) (.vstr "lives") = some (.vint 9) ∧
    pGet (c4Entry.cf_cda.getD []) (.vstr "lives") ≠ pGet c4Entry.fields (.vstr "lives") := by
  refine ⟨rfl, rfl, rfl, rfl, ?_⟩
  decide

/-- Witness for the amended C4 at the `c4Json` decode. -/
theorem C4_raw_typed_sync_witness :
    (∀ (m : Mapped) (r2 : Res), resolveRes m (.entry c4Entry) = .ok r2 →
      ∀ k : PyVal, pGet c4Entry.fields k = pGet (c4Entry.cf_cda.getD []) k →
        ∃ e2, r2 = .entry e2 ∧ e2.raw_fields = c4Entry.raw_fields ∧
          pGet e2.fields k = pGet (e2.cf_cda.getD []) k) ∧
    (∀ sys ctn cts ctj clazz,
      jgetE c4Json "sys" = .ok sys → jgetE sys "contentType" = .ok ctn →
      jgetE ctn "sys" = .ok cts → jgetE cts "id" = .ok ctj →
      pGet c4Em (jsonToPy ctj) = some clazz →
      (clazz.entry_fields.map (fun av => av.2.field_id)).Nodup →
      ∀ av ∈ clazz.entry_fields, ∀ fv,
        pGet c4Entry.fields (.vstr av.2.field_id) = some fv → fv ≠ .vnull →
        ∃ cv, convert_value fv av.2 = .ok cv ∧
          pGet (c4Entry.cf_cda.getD []) (.vstr av.2.field_id) = some cv) :=
  @C4_raw_typed_sync c4Em c4Json c4Entry (by rfl)

/-! Lemmas about schema registration and configuration validation. -/

/-- The `content_type_id` collected by the attribute scan of
`FieldOwner.__new__`, on its own. -/
def ctStep (name : String) (a2 : Option PyVal) (nv : String × ClassAttr) :
    Option PyVal :=
  match nv.2 with
  | .fieldAttr _ => a2
  | .plain v =>
    if name ≠ "Entry" ∧ nv.1 = "__content_type__" then some v else a2

/-- The collected content-type attribute of a class body. -/
def ctOfAttrs (name : String) (attrs : List (String × ClassAttr)) : Option PyVal :=
  attrs.foldl (ctStep name) none

theorem foNew_snd (name : String) :
    ∀ (l : List (String × ClassAttr)) (acc : List (String × FieldSpec) × Option PyVal),
      (l.foldl (foStep name) acc).2 = l.foldl (ctStep name) acc.2 := by
  intro l
  induction l with
  | nil => intro acc; rfl
  | cons nv rest ih =>
    intro acc
    obtain ⟨nm, att⟩ := nv
    cases att with
    | fieldAttr f =>
      simp only [List.foldl_cons, foStep, ctStep]
      exact ih _
    | plain v =>
      by_cases hc : name ≠ "Entry" ∧ nm = "__content_type__"
      · simp only [List.foldl_cons, foStep, ctStep, if_pos hc]
        exact ih _
      · simp only [List.foldl_cons, foStep, ctStep, if_neg hc]
        exact ih _

theorem fieldOwnerNew_err {name : String} {attrs : List (String × ClassAttr)}
    (hname : name ≠ "Entry") (hnone : optIsNone (ctOfAttrs name attrs) = true) :
    fieldOwnerNew name attrs = .error .attributeError := by
  simp only [fieldOwnerNew]
  rw [foNew_snd name attrs ([], none)]
  rw [if_pos ⟨hname, hnone⟩]

theorem fieldOwnerNew_ok {name : String} {attrs : List (String × ClassAttr)}
    (hname : name ≠ "Entry") (hsome : optIsNone (ctOfAttrs name attrs) = false) :
    ∃ c, fieldOwnerNew name attrs = .ok c ∧ c.name = name ∧
      c.content_type = ctOfAttrs name attrs := by
  simp only [fieldOwnerNew]
  rw [foNew_snd name attrs ([], none)]
  rw [if_neg (fun hand => by
    have h2 : optIsNone (ctOfAttrs name attrs) = true := hand.2
    rw [hsome] at h2
    exact Bool.noConfusion h2)]
  exact ⟨_, rfl, rfl, rfl⟩

/-- Python `all(isinstance-like custom check)` over registered classes. -/
def allCustom : List PyClass → Bool
  | [] => true
  | .custom _ :: rest => allCustom rest
  | _ => false

theorem forM_entryBase :
    ∀ l : List PyClass, PyClass.entryBase ∈ l →
      ∃ er, (l.forM (fun clazz =>
        if ¬ issubclassEntry clazz then throw .exception
        else if isEntryBase clazz then throw .exception
        else pure ()) : Except Err Unit) = .error er := by
  intro l
  induction l with
  | nil => intro hm; exact absurd hm (List.not_mem_nil _)
  | cons c rest ih =>
    intro hm
    cases c with
    | entryBase => exact ⟨.exception, rfl⟩
    | custom c =>
      rcases List.mem_cons.mp hm with hh | hmem
      · exact PyClass.noConfusion hh
      · obtain ⟨er, her⟩ := ih hmem
        exact ⟨er, her⟩
    | nonEntry nm => exact ⟨.exception, rfl⟩

theorem forM_allCustom :
    ∀ l : List PyClass, allCustom l = true →
      (l.forM (fun clazz =>
        if ¬ issubclassEntry clazz then throw .exception
        else if isEntryBase clazz then throw .exception
        else pure ()) : Except Err Unit) = .ok () := by
  intro l
  induction l with
  | nil => intro _; rfl
  | cons c rest ih =>
    intro h
    cases c with
    | entryBase => exact Bool.noConfusion h
    | custom c => exact ih h
    | nonEntry nm => exact Bool.noConfusion h

@[simp] theorem throwE {α : Type} (e : Err) :
    (throw e : Except Err α) = Except.error e := rfl

theorem create_entry_unregistered {em : List (PyVal × EntryClass)}
    {j sys ctn cts ctj : Json}
    (h1 : jgetE j "sys" = .ok sys) (h2 : jgetE sys "contentType" = .ok ctn)
    (h3 : jgetE ctn "sys" = .ok cts) (h4 : jgetE cts "id" = .ok ctj)
    (hnone : pGet em (jsonToPy ctj) = none) :
    create_entry em j = create_entry [] j := by
  simp only [create_entry]
  rw [h1]
  simp only [bindE_ok]
  rw [h2]
  simp only [bindE_ok]
  rw [h3]
  simp only [bindE_ok]
  rw [h4]
  simp only [bindE_ok]
  rcases h5 : jgetE j "fields" with er | fj
  · simp only [bindE_err]
  · simp only [bindE_ok]
    rcases fj with _ | _ | _ | _ | _ | o <;>
      simp only [bindE_ok, bindE_err, pureE, throwE]
    rcases h6 : (jsonPairsToPy o).mapM
        (fun kv => do
          let w ← substValue kv.2
          Except.ok (kv.1, w)) with er | flds <;>
      simp only [h6, bindE_ok, bindE_err]
    rw [hnone]
    simp only [pGet]

/-- C5: what the code validates, where: the presence of a non-None
content-type identifier is checked when the class is created (missing makes
class creation fail with AttributeError, any non-None value including the
empty string passes); registering the Entry base class itself is rejected at
client configuration, not at class creation; and decoding an entry whose
content type is not registered falls back to the generic decode rather than
failing. -/
theorem C5_registration_validation :
    (∀ (name : String) (attrs : List (String × ClassAttr)),
      name ≠ "Entry" → optIsNone (ctOfAttrs name attrs) = true →
      fieldOwnerNew name attrs = .error .attributeError) ∧
    (∀ (name : String) (attrs : List (String × ClassAttr)),
      name ≠ "Entry" → optIsNone (ctOfAttrs name attrs) = false →
      ∃ c, fieldOwnerNew name attrs = .ok c ∧ c.name = name ∧
        c.content_type = ctOfAttrs name attrs) ∧
    (∀ cfg : Config, PyClass.entryBase ∈ cfg.custom_entries →
      cfg.space_id ≠ none → cfg.access_token ≠ none →
      ∃ er, validate_config cfg = .error er) ∧
    (∀ cfg : Config, cfg.space_id ≠ none → cfg.access_token ≠ none →
      allCustom cfg.custom_entries = true → validate_config cfg = .ok ()) ∧
    (∀ (em : List (PyVal × EntryClass)) (j sys ctn cts ctj : Json),
      jgetE j "sys" = .ok sys → jgetE sys "contentType" = .ok ctn →
      jgetE ctn "sys" = .ok cts → jgetE cts "id" = .ok ctj →
      pGet em (jsonToPy ctj) = none →
      create_entry em j = create_entry [] j) := by
  refine ⟨fun name attrs hn ho => fieldOwnerNew_err hn ho,
    fun name attrs hn ho => fieldOwnerNew_ok hn ho, ?_, ?_,
    fun em j sys ctn cts ctj h1 h2 h3 h4 h5 =>
      create_entry_unregistered h1 h2 h3 h4 h5⟩
  · intro cfg hm hsp hat
    simp only [validate_config]
    rw [if_neg hsp, if_neg hat]
    exact forM_entryBase cfg.custom_entries hm
  · intro cfg hsp hat hall
    simp only [validate_config]
    rw [if_neg hsp, if_neg hat]
    exact forM_allCustom cfg.custom_entries hall

/-- A class body whose content-type identifier is the empty string. -/
def c5EmptyCt : List (String × ClassAttr) :=
  [("__content_type__", .plain (.vstr "")), ("name", .fieldAttr ⟨.text, none⟩)]

/-- The class created from `c5EmptyCt`. -/
def c5Cat : EntryClass :=
  match fieldOwnerNew "Cat" c5EmptyCt with
  | .ok c => c
  | .error _ => ⟨"", none, []⟩

/-- Counterexample to C5 as stated: a schema whose content-type identifier is
the empty string is accepted at class creation and passes client
configuration validation, so an empty identifier raises no error at
registration or later. -/
theorem C5_registration_counterexample :
    fieldOwnerNew "Cat" c5EmptyCt = .ok c5Cat ∧
    c5Cat.content_type = some (.vstr "") ∧
    validate_config ⟨some "spc", some "tok", [.custom c5Cat]⟩ = .ok () :=
  ⟨rfl, rfl, rfl⟩

/-- The class created from a well-formed body. -/
def c5Dog : EntryClass :=
  match fieldOwnerNew "Dog" [("__content_type__", .plain (.vstr "dog"))] with
  | .ok c => c
  | .error _ => ⟨"", none, []⟩

/-- Witness for C5 at concrete class bodies, configurations and payloads. -/
theorem C5_registration_validation_witness :
    fieldOwnerNew "Dog" [("name", .fieldAttr ⟨.text, none⟩)] = .error .attributeError ∧
    (∃ c, fieldOwnerNew "Dog" [("__content_type__", .plain (.vstr "dog"))] = .ok c ∧
      c.name = "Dog" ∧
      c.content_type = ctOfAttrs "Dog" [("__content_type__", .plain (.vstr "dog"))]) ∧
    (∃ er, validate_config ⟨some "s", some "t", [.entryBase]⟩ = .error er) ∧
    validate_config ⟨some "s", some "t", [.custom c5Dog]⟩ = .ok () ∧
    create_entry [(.vstr "dog", c5Dog)] c4Json = create_entry [] c4Json :=
  ⟨C5_registration_validation.1 "Dog" _ (by decide) (by decide),
   C5_registration_validation.2.1 "Dog" _ (by decide) (by decide),
   C5_registration_validation.2.2.1 ⟨some "s", some "t", [.entryBase]⟩
     (List.mem_singleton.mpr rfl) (by decide) (by decide),
   C5_registration_validation.2.2.2.1 ⟨some "s", some "t", [.custom c5Dog]⟩
     (by decide) (by decide) rfl,
   C5_registration_validation.2.2.2.2 [(.vstr "dog", c5Dog)] c4Json
     (.jobj [("id", .js "c1"), ("type", .js "Entry"),
       ("contentType", .jobj [("sys", .jobj [("id", .js "cat")])])])
     (.jobj [("sys", .jobj [("id", .js "cat")])])
     (.jobj [("id", .js "cat")])
     (.js "cat") rfl rfl rfl rfl rfl⟩

/-! The three resolution claims: the leading-run heuristic on sequences,
identity of resolved scalar links (including cycles), and totality. -/

theorem slotVal_list_inv {m : Mapped} {l : List PyVal} {v : PyVal}
    (h : slotVal m (.vlist l) = .ok v) :
    ∃ l', resolveSeq m l = .ok l' ∧ v = .vlist l' := by
  simp only [slotVal] at h
  rcases hl : resolveSeq m l with er | l' <;> rw [hl] at h
  · exact Except.noConfusion h
  · simp only [bindE_ok, pureE] at h
    injection h with h
    exact ⟨l', rfl, h.symm⟩

theorem slotVal_link_found {m : Mapped} {lt rid : PyVal} {b : List (PyVal × Nat)}
    {a : Nat} (hb : mappedGet m lt = .ok b) (hf : pGet b rid = some a) :
    slotVal m (.vlink lt rid) = .ok (.vref a) := by
  simp [slotVal, lookupLink, hb, hf]

theorem slotVal_link_missing {m : Mapped} {lt rid : PyVal} {b : List (PyVal × Nat)}
    (hb : mappedGet m lt = .ok b) (hf : pGet b rid = none) :
    slotVal m (.vlink lt rid) = .ok (.vlink lt rid) := by
  simp [slotVal, lookupLink, hb, hf]

/-- C2, amended: for a sequence-valued entry field, exactly the leading run
of placeholders is resolved in place with positions preserved — a placeholder
in the leading run whose target is found becomes a reference and is kept
otherwise, every position at or past the first non-placeholder is untouched,
and a sequence whose first element is not a placeholder is left entirely
unchanged even when later elements are placeholders. -/
theorem C2_leading_run {h h2 : Heap} {arr : ArrayObj}
    (hres : resolve_links h arr = .ok h2)
    {eb : List (PyVal × Nat)}
    (heb : mappedGet arr.items_mapped (.vstr "Entry") = .ok eb)
    {id : PyVal} {a : Nat} (hmem : (id, a) ∈ eb)
    {e : EntryObj} (he : h[a]? = some (.entry e))
    {k : PyVal} {l : List PyVal} (hslot : pGet e.fields k = some (.vlist l)) :
    ∃ e2 l', h2[a]? = some (.entry e2) ∧ pGet e2.fields k = some (.vlist l') ∧
      l'.length = l.length ∧
      (∀ i, leadLinks l ≤ i → l'[i]? = l[i]?) ∧
      (isLinkB (l.headD .vnull) = false → l' = l) ∧
      (∀ i lt rid, i < leadLinks l → l[i]? = some (.vlink lt rid) →
        ∃ b, mappedGet arr.items_mapped lt = .ok b ∧
          ((∃ a2, pGet b rid = some a2 ∧ l'[i]? = some (.vref a2)) ∨
            (pGet b rid = none ∧ l'[i]? = some (.vlink lt rid)))) := by
  obtain ⟨cf2, fl2, hcf, hfl, hout⟩ := resolve_entry_at hres heb hmem he
  obtain ⟨v2, hv2, hw2⟩ := (resolveDict_lookup hfl k).1 _ hslot
  obtain ⟨l', hl', rfl⟩ := slotVal_list_inv hv2
  obtain ⟨hlen, hpast, hrun⟩ := resolveSeq_spec hl'
  refine ⟨_, l', hout, hw2, hlen, hpast, ?_, hrun⟩
  intro hhead
  cases l with
  | nil =>
    rw [resolveSeq_nil] at hl'
    injection hl' with hl'
    rw [← hl']
  | cons x rest =>
    simp only [List.headD_cons] at hhead
    rw [resolveSeq_cons_nonlink hhead] at hl'
    injection hl' with hl'
    rw [← hl']

/-- C1, amended: a scalar link slot whose (kind, id) target is present in the
bucket map is replaced by a reference to the target resource's heap address in
the substituted field dict and likewise in the typed attribute dict, so every
such occurrence resolves to the same shared object; links inside a sequence
are only replaced within its leading placeholder run. -/
theorem C1_cycle_identity {h h2 : Heap} {arr : ArrayObj}
    (hres : resolve_links h arr = .ok h2)
    {eb : List (PyVal × Nat)}
    (heb : mappedGet arr.items_mapped (.vstr "Entry") = .ok eb)
    {id : PyVal} {a : Nat} (hmem : (id, a) ∈ eb)
    {e : EntryObj} (he : h[a]? = some (.entry e))
    {k lt rid : PyVal} {b : List (PyVal × Nat)} {aT : Nat}
    (hb : mappedGet arr.items_mapped lt = .ok b)
    (hfound : pGet b rid = some aT) :
    ∃ e2, h2[a]? = some (.entry e2) ∧
      (pGet e.fields k = some (.vlink lt rid) →
        pGet e2.fields k = some (.vref aT)) ∧
      (∀ cfd, e.cf_cda = some cfd → pGet cfd k = some (.vlink lt rid) →
        ∃ cfd2, e2.cf_cda = some cfd2 ∧ pGet cfd2 k = some (.vref aT)) := by
  obtain ⟨cf2, fl2, hcf, hfl, hout⟩ := resolve_entry_at hres heb hmem he
  refine ⟨_, hout, ?_, ?_⟩
  · intro hslot
    obtain ⟨v2, hv2, hw2⟩ := (resolveDict_lookup hfl k).1 _ hslot
    rw [slotVal_link_found hb hfound] at hv2
    injection hv2 with hv2
    rw [← hv2] at hw2
    exact hw2
  · intro cfd hcd hslot
    rw [hcd] at hcf
    simp only [Option.getD_some] at hcf
    obtain ⟨v2, hv2, hw2⟩ := (resolveDict_lookup hcf k).1 _ hslot
    rw [slotVal_link_found hb hfound] at hv2
    injection hv2 with hv2
    rw [← hv2] at hw2
    refine ⟨cf2, ?_, hw2⟩
    rw [hcd]
    rfl

/-- C3, amended: the resolution pass completes normally provided every
placeholder reachable from the Entry bucket names an existing bucket kind and
every bucket member is an Entry resource (so it has both field containers);
and a placeholder whose id is not found in its bucket is left untouched
rather than causing an error. -/
theorem C3_resolve_soft {h : Heap} {arr : ArrayObj} {eb : List (PyVal × Nat)}
    (heb : mappedGet arr.items_mapped (.vstr "Entry") = .ok eb)
    (hcond : ∀ p ∈ eb, ∃ e : EntryObj, h[p.2]? = some (.entry e) ∧
      kindsOkDict arr.items_mapped (e.cf_cda.getD []) ∧
      kindsOkDict arr.items_mapped e.fields) :
    (∃ h2, resolve_links h arr = .ok h2) ∧
    (∀ h2, resolve_links h arr = .ok h2 →
      ∀ p ∈ eb, ∀ e : EntryObj, h[p.2]? = some (.entry e) →
        ∀ k lt rid, pGet e.fields k = some (.vlink lt rid) →
          ∀ b, mappedGet arr.items_mapped lt = .ok b → pGet b rid = none →
            ∃ e2, h2[p.2]? = some (.entry e2) ∧
              pGet e2.fields k = some (.vlink lt rid)) := by
  constructor
  · have htot : ∀ p ∈ eb, ∃ r, h[p.2]? = some r ∧
        ∃ r2, resolveRes arr.items_mapped r = .ok r2 := by
      intro p hp
      obtain ⟨e, hre, hkc, hkf⟩ := hcond p hp
      refine ⟨.entry e, hre, resolveRes_total ⟨e.fields, rfl⟩ hkc ?_⟩
      intro fl hfl
      injection hfl with hfl
      rw [← hfl]
      exact hkf
    obtain ⟨h2, hrest⟩ := resolveEntries_total htot
    exact ⟨h2, by simp [resolve_links, heb, bindE_ok, hrest]⟩
  · intro h2 hres p hp e hre k lt rid hslot b hb hmiss
    obtain ⟨cf2, fl2, hcf, hfl, hout⟩ := resolve_entry_at hres heb
      (show (p.1, p.2) ∈ eb from hp) hre
    obtain ⟨v2, hv2, hw2⟩ := (resolveDict_lookup hfl k).1 _ hslot
    rw [slotVal_link_missing hb hmiss] at hv2
    injection hv2 with hv2
    rw [← hv2] at hw2
    exact ⟨_, hout, hw2⟩

/-- Entry A of the cycle fixture: a scalar link to B and a list holding the
same link in non-leading position. -/
def c1A : Json :=
  .jobj [
    ("sys", .jobj [("id", .js "A"), ("type", .js "Entry"),
      ("contentType", .jobj [("sys", .jobj [("id", .js "cat")])])]),
    ("fields", .jobj [
      ("buddy", .jobj [("sys", .jobj [("type", .js "Link"),
        ("linkType", .js "Entry"), ("id", .js "B")])]),
      ("l2", .jarr [.jn 7, .jobj [("sys", .jobj [("type", .js "Link"),
        ("linkType", .js "Entry"), ("id", .js "B")])]])])]

/-- Entry B of the cycle fixture: a scalar link back to A. -/
def c1B : Json :=
  .jobj [
    ("sys", .jobj [("id", .js "B"), ("type", .js "Entry"),
      ("contentType", .jobj [("sys", .jobj [("id", .js "cat")])])]),
    ("fields", .jobj [
      ("buddy", .jobj [("sys", .jobj [("type", .js "Link"),
        ("linkType", .js "Entry"), ("id", .js "A")])])])]

/-- An Array response holding the two mutually linked entries. -/
def c1Json : Json :=
  .jobj [
    ("sys", .jobj [("type", .js "Array")]),
    ("total", .jn 2), ("skip", .jn 0), ("limit", .jn 100),
    ("items", .jarr [c1A, c1B])]

/-- The heap and array address decoded from `c1Json`. -/
def c1Out : Heap × Nat :=
  match create_array [] 9 [] c1Json with
  | .ok r => r
  | .error _ => ([], 0)

/-- The decoded array resource of the cycle fixture. -/
def c1Arr : ArrayObj :=
  match (c1Out.1[c1Out.2]? : Option Res) with
  | some (Res.arrRes a) => a
  | _ => ⟨.null, .vnull, .vnull, .vnull, [], []⟩

/-- The heap after the resolution pass of the cycle fixture. -/
def c1Heap2 : Heap :=
  match resolve_links c1Out.1 c1Arr with
  | .ok hh => hh
  | .error _ => []

/-- Entry A as decoded, before resolution. -/
def c1eA : EntryObj :=
  match (c1Out.1[0]? : Option Res) with
  | some (Res.entry e) => e
  | _ => ⟨.null, [], [], none⟩

/-- Entry B as decoded, before resolution. -/
def c1eB : EntryObj :=
  match (c1Out.1[1]? : Option Res) with
  | some (Res.entry e) => e
  | _ => ⟨.null, [], [], none⟩

/-- Entry A after the resolution pass of the cycle fixture. -/
def c1eA2 : EntryObj :=
  match (c1Heap2[0]? : Option Res) with
  | some (Res.entry e) => e
  | _ => ⟨.null, [], [], none⟩

/-- Entry B after the resolution pass of the cycle fixture. -/
def c1eB2 : EntryObj :=
  match (c1Heap2[1]? : Option Res) with
  | some (Res.entry e) => e
  | _ => ⟨.null, [], [], none⟩

/-- Counterexample to C1 as stated: after the resolution pass, the link to B
in scalar position was replaced by a reference, but the occurrence of the very
same link at the non-leading position of the list field remained a
placeholder, although its target exists in the bucket map — so a link whose
target exists is not replaced everywhere it appears. -/
theorem C1_identity_counterexample :
    resolve_links c1Out.1 c1Arr = .ok c1Heap2 ∧
    mappedGet c1Arr.items_mapped (.vstr "Entry") =
      .ok [(.vstr "A", 0), (.vstr "B", 1)] ∧
    pGet c1eA.fields (.vstr "l2") =
      some (.vlist [.vint 7, .vlink (.vstr "Entry") (.vstr "B")]) ∧
    c1Heap2[0]? = some (.entry c1eA2) ∧
    pGet c1eA2.fields (.vstr "buddy") = some (.vref 1) ∧
    pGet c1eA2.fields (.vstr "l2") =
      some (.vlist [.vint 7, .vlink (.vstr "Entry") (.vstr "B")]) :=
  ⟨rfl, by decide, by decide, rfl, by decide, by decide⟩

/-- Witness for the amended C1 at the cycle fixture, in both directions of
the cycle: A ends up referencing B's heap cell and B ends up referencing
A's. -/
theorem C1_cycle_identity_witness :
    (∃ eA2, c1Heap2[0]? = some (.entry eA2) ∧
      (pGet c1eA.fields (.vstr "buddy") =
          some (.vlink (.vstr "Entry") (.vstr "B")) →
        pGet eA2.fields (.vstr "buddy") = some (.vref 1)) ∧
      (∀ cfd, c1eA.cf_cda = some cfd →
        pGet cfd (.vstr "buddy") = some (.vlink (.vstr "Entry") (.vstr "B")) →
        ∃ cfd2, eA2.cf_cda = some cfd2 ∧
          pGet cfd2 (.vstr "buddy") = some (.vref 1))) ∧
    (∃ eB2, c1Heap2[1]? = some (.entry eB2) ∧
      (pGet c1eB.fields (.vstr "buddy") =
          some (.vlink (.vstr "Entry") (.vstr "A")) →
        pGet eB2.fields (.vstr "buddy") = some (.vref 0)) ∧
      (∀ cfd, c1eB.cf_cda = some cfd →
        pGet cfd (.vstr "buddy") = some (.vlink (.vstr "Entry") (.vstr "A")) →
        ∃ cfd2, eB2.cf_cda = some cfd2 ∧
          pGet cfd2 (.vstr "buddy") = some (.vref 0))) :=
  ⟨@C1_cycle_identity c1Out.1 c1Heap2 c1Arr (by rfl)
      [(PyVal.vstr "A", 0), (PyVal.vstr "B", 1)] (by decide)
      (PyVal.vstr "A") 0 (by decide) c1eA (by rfl)
      (PyVal.vstr "buddy") (PyVal.vstr "Entry") (PyVal.vstr "B")
      [(PyVal.vstr "A", 0), (PyVal.vstr "B", 1)] 1 (by decide) (by decide),
   @C1_cycle_identity c1Out.1 c1Heap2 c1Arr (by rfl)
      [(PyVal.vstr "A", 0), (PyVal.vstr "B", 1)] (by decide)
      (PyVal.vstr "B") 1 (by decide) c1eB (by rfl)
      (PyVal.vstr "buddy") (PyVal.vstr "Entry") (PyVal.vstr "A")
      [(PyVal.vstr "A", 0), (PyVal.vstr "B", 1)] 0 (by decide) (by decide)⟩

/-- The list field of the leading-run fixture. -/
def c2List : List PyVal :=
  [.vlink (.vstr "Entry") (.vstr "B"), .vint 7, .vlink (.vstr "Entry") (.vstr "B")]

/-- Entry A of the leading-run fixture: a list whose head is a placeholder
and which holds another placeholder after a plain value. -/
def c2A : Json :=
  .jobj [
    ("sys", .jobj [("id", .js "A"), ("type", .js "Entry"),
      ("contentType", .jobj [("sys", .jobj [("id", .js "cat")])])]),
    ("fields", .jobj [
      ("l2", .jarr [
        .jobj [("sys", .jobj [("type", .js "Link"),
          ("linkType", .js "Entry"), ("id", .js "B")])],
        .jn 7,
        .jobj [("sys", .jobj [("type", .js "Link"),
          ("linkType", .js "Entry"), ("id", .js "B")])]])])]

/-- An Array response holding the leading-run entry and its target. -/
def c2Json : Json :=
  .jobj [
    ("sys", .jobj [("type", .js "Array")]),
    ("total", .jn 2), ("skip", .jn 0), ("limit", .jn 100),
    ("items", .jarr [c2A, c1B])]

/-- The heap and array address decoded from `c2Json`. -/
def c2Out : Heap × Nat :=
  match create_array [] 9 [] c2Json with
  | .ok r => r
  | .error _ => ([], 0)

/-- The decoded array resource of the leading-run fixture. -/
def c2Arr : ArrayObj :=
  match (c2Out.1[c2Out.2]? : Option Res) with
  | some (Res.arrRes a) => a
  | _ => ⟨.null, .vnull, .vnull, .vnull, [], []⟩

/-- The heap after the resolution pass of the leading-run fixture. -/
def c2Heap2 : Heap :=
  match resolve_links c2Out.1 c2Arr with
  | .ok hh => hh
  | .error _ => []

/-- Entry A of the leading-run fixture as decoded, before resolution. -/
def c2eA : EntryObj :=
  match (c2Out.1[0]? : Option Res) with
  | some (Res.entry e) => e
  | _ => ⟨.null, [], [], none⟩

/-- Entry A after the resolution pass of the leading-run fixture. -/
def c2eA2 : EntryObj :=
  match (c2Heap2[0]? : Option Res) with
  | some (Res.entry e) => e
  | _ => ⟨.null, [], [], none⟩

/-- Counterexample to C2 as stated: the sequence starts with a placeholder,
and yet only the leading placeholder is resolved; the placeholder sitting
after the plain element stays unresolved even though its target exists. -/
theorem C2_heuristic_counterexample :
    resolve_links c2Out.1 c2Arr = .ok c2Heap2 ∧
    pGet c2eA.fields (.vstr "l2") = some (.vlist c2List) ∧
    isLinkB (c2List.headD .vnull) = true ∧
    mappedGet c2Arr.items_mapped (.vstr "Entry") =
      .ok [(.vstr "A", 0), (.vstr "B", 1)] ∧
    c2Heap2[0]? = some (.entry c2eA2) ∧
    pGet c2eA2.fields (.vstr "l2") = some (.vlist
      [.vref 1, .vint 7, .vlink (.vstr "Entry") (.vstr "B")]) :=
  ⟨rfl, by decide, by decide, by decide, rfl, by decide⟩

/-- Witness for the amended C2 at the leading-run fixture. -/
theorem C2_leading_run_witness :
    ∃ e2 l2f, c2Heap2[0]? = some (.entry e2) ∧
      pGet e2.fields (.vstr "l2") = some (.vlist l2f) ∧
      l2f.length = c2List.length ∧
      (∀ i, leadLinks c2List ≤ i → l2f[i]? = c2List[i]?) ∧
      (isLinkB (c2List.headD .vnull) = false → l2f = c2List) ∧
      (∀ i lt rid, i < leadLinks c2List → c2List[i]? = some (.vlink lt rid) →
        ∃ b, mappedGet c2Arr.items_mapped lt = .ok b ∧
          ((∃ a2, pGet b rid = some a2 ∧ l2f[i]? = some (.vref a2)) ∨
            (pGet b rid = none ∧ l2f[i]? = some (.vlink lt rid)))) :=
  @C2_leading_run c2Out.1 c2Heap2 c2Arr (by rfl)
    [(PyVal.vstr "A", 0), (PyVal.vstr "B", 1)] (by decide)
    (PyVal.vstr "A") 0 (by decide) c2eA (by rfl)
    (PyVal.vstr "l2") c2List (by decide)

/-- Entry A of the raising fixture: a link whose target kind is Space. -/
def c3A : Json :=
  .jobj [
    ("sys", .jobj [("id", .js "A"), ("type", .js "Entry"),
      ("contentType", .jobj [("sys", .jobj [("id", .js "cat")])])]),
    ("fields", .jobj [
      ("sp", .jobj [("sys", .jobj [("type", .js "Link"),
        ("linkType", .js "Space"), ("id", .js "s1")])])])]

/-- An Array response holding the Space-link entry. -/
def c3Json : Json :=
  .jobj [
    ("sys", .jobj [("type", .js "Array")]),
    ("total", .jn 1), ("skip", .jn 0), ("limit", .jn 100),
    ("items", .jarr [c3A])]

/-- The heap and array address decoded from `c3Json`. -/
def c3Out : Heap × Nat :=
  match create_array [] 9 [] c3Json with
  | .ok r => r
  | .error _ => ([], 0)

/-- The decoded array resource of the raising fixture. -/
def c3Arr : ArrayObj :=
  match (c3Out.1[c3Out.2]? : Option Res) with
  | some (Res.arrRes a) => a
  | _ => ⟨.null, .vnull, .vnull, .vnull, [], []⟩

/-- Counterexample to C3 as stated: a placeholder whose target kind is Space
names no bucket of `items_mapped`, and the resolution pass raises KeyError
instead of completing. -/
theorem C3_raises_counterexample :
    mappedGet c3Arr.items_mapped (.vstr "Space") = .error .keyError ∧
    resolve_links c3Out.1 c3Arr = .error .keyError :=
  ⟨rfl, rfl⟩

/-- Entry A of the soft-fail fixture: an Entry link to an id that no bucket
member carries. -/
def c3G : Json :=
  .jobj [
    ("sys", .jobj [("id", .js "A"), ("type", .js "Entry"),
      ("contentType", .jobj [("sys", .jobj [("id", .js "cat")])])]),
    ("fields", .jobj [
      ("g", .jobj [("sys", .jobj [("type", .js "Link"),
        ("linkType", .js "Entry"), ("id", .js "ghost")])])])]

/-- An Array response holding the soft-fail entry. -/
def c3gJson : Json :=
  .jobj [
    ("sys", .jobj [("type", .js "Array")]),
    ("total", .jn 1), ("skip", .jn 0), ("limit", .jn 100),
    ("items", .jarr [c3G])]

/-- The heap and array address decoded from `c3gJson`. -/
def c3gOut : Heap × Nat :=
  match create_array [] 9 [] c3gJson with
  | .ok r => r
  | .error _ => ([], 0)

/-- The decoded array resource of the soft-fail fixture. -/
def c3gArr : ArrayObj :=
  match (c3gOut.1[c3gOut.2]? : Option Res) with
  | some (Res.arrRes a) => a
  | _ => ⟨.null, .vnull, .vnull, .vnull, [], []⟩

/-- The soft-fail entry as decoded. -/
def c3geA : EntryObj :=
  match (c3gOut.1[0]? : Option Res) with
  | some (Res.entry e) => e
  | _ => ⟨.null, [], [], none⟩

/-- Witness for the amended C3 at the soft-fail fixture: the pass completes
and the not-found placeholder is kept. -/
theorem C3_resolve_soft_witness :
    (∃ h2, resolve_links c3gOut.1 c3gArr = .ok h2) ∧
    (∀ h2, resolve_links c3gOut.1 c3gArr = .ok h2 →
      ∀ p ∈ [((PyVal.vstr "A" : PyVal), (0 : Nat))], ∀ e : EntryObj,
        c3gOut.1[p.2]? = some (.entry e) →
        ∀ k lt rid, pGet e.fields k = some (.vlink lt rid) →
          ∀ b, mappedGet c3gArr.items_mapped lt = .ok b → pGet b rid = none →
            ∃ e2, h2[p.2]? = some (.entry e2) ∧
              pGet e2.fields k = some (.vlink lt rid)) :=
  @C3_resolve_soft c3gOut.1 c3gArr [(PyVal.vstr "A", 0)] (by decide) (by
    intro p hp
    rw [List.mem_singleton] at hp
    subst hp
    refine ⟨c3geA, rfl, ?_, ?_⟩
    · intro kv hkv
      have hcd : (c3geA.cf_cda.getD []) = [] := by decide
      rw [hcd] at hkv
      exact absurd hkv (List.not_mem_nil kv)
    · intro kv hkv
      have hfl : c3geA.fields =
          [(PyVal.vstr "g", PyVal.vlink (.vstr "Entry") (.vstr "ghost"))] := by decide
      rw [hfl] at hkv
      rw [List.mem_singleton] at hkv
      subst hkv
      exact ⟨[(PyVal.vstr "A", 0)], by decide⟩)

end Contentful
